import Mathlib

/-!
# Gnostr ranking store (scumclass/gnostr)

A shallow embedding of `database.go`, `gnostr.go` and `handler.go`.

* The Go map `currentState.data` is an association list with distinct keys
  (`AList`); it is only ever read through `lookup` and `keys`, never through
  the order of its entries, except where a loop writes every key of a fresh map
  exactly once (`resetMentions`).
* The order in which `range` walks a Go map is unspecified.  Every such loop
  whose outcome can depend on that order takes the order as an argument: the
  list of keys in the order the loop produces them.
* `sort.Slice` gives no stability guarantee, so it is an argument as well, and
  is only assumed to meet its contract (`SortSliceSpec`).
* A write into a nil Go map panics; `MentionMap` is therefore an `Option`, and
  the pass returns `none` when it panics.
-/

namespace Gnostr

/-! ## go-nostr tags -/

/-- A go-nostr `Tag` is a slice of strings. -/
abbrev Tag := List String

/-- A go-nostr `Tags` value is a slice of tags. -/
abbrev Tags := List Tag

/-- Go `strings.HasPrefix s p`: `s` begins with `p`. -/
def HasPrefix (s p : String) : Bool := p.data.isPrefixOf s.data

/-- The go-nostr `Tag.StartsWith`: the tag is at least as long as the pattern, agrees
with it on all but the last pattern element, and the tag element facing the last pattern
element begins with it.  (An empty pattern indexes position -1 in Go; the only caller
here passes a one-element pattern.) -/
def Tag.StartsWith : Tag → List String → Bool
  | _, [] => false
  | [], _ :: _ => false
  | t :: _, [p] => HasPrefix t p
  | t :: ts, p :: q :: ps => (t == p) && Tag.StartsWith ts (q :: ps)

/-- The go-nostr `Tag.Value`: the second element, or the empty string when the tag has
fewer than two elements. -/
def Tag.Value : Tag → String
  | _ :: v :: _ => v
  | _ => ""

/-- The go-nostr `Tags.GetAll`: the tags that start with the given pattern, in order. -/
def Tags.GetAll (tags : Tags) (pat : List String) : Tags :=
  tags.filter (fun tag => Tag.StartsWith tag pat)

/-! ## Events -/

namespace Nostr

/-- The go-nostr `Event` value carried by a ranking record. -/
structure Event where
  ID : String
  PubKey : String
  CreatedAt : Int
  Kind : Int
  Tags : Tags
  Content : String
  Sig : String
deriving DecidableEq, Repr

/-- The Go zero value of `nostr.Event`. -/
def Event.zero : Event :=
  { ID := "", PubKey := "", CreatedAt := 0, Kind := 0, Tags := [], Content := "", Sig := "" }

end Nostr

namespace Mindmachine

/-- Modelled from the spec: `mindmachine.Event` (package `mindmachine/mindmachine`, not
part of the sources at hand) is the externally defined event with an identifier, a kind
and tags; it carries the same fields as the `nostr.Event` it converts to. -/
structure Event where
  ID : String
  PubKey : String
  CreatedAt : Int
  Kind : Int
  Tags : Tags
  Content : String
  Sig : String
deriving DecidableEq, Repr

/-- Modelled from the spec: `Event.Nostr()` (package `mindmachine/mindmachine`) hands the
payload of the event over unchanged as a `nostr.Event`. -/
def Event.Nostr (e : Event) : Nostr.Event :=
  { ID := e.ID, PubKey := e.PubKey, CreatedAt := e.CreatedAt, Kind := e.Kind,
    Tags := e.Tags, Content := e.Content, Sig := e.Sig }

/-- Modelled from the spec: `mindmachine.HashSeq` (package `mindmachine/mindmachine`) is
the identifier value `HandleEvent` returns; only its zero value is ever produced here. -/
structure HashSeq where
  Hash : String
  Sequence : Int
deriving DecidableEq, Repr

/-- The Go zero value of `HashSeq`. -/
def HashSeq.zero : HashSeq := { Hash := "", Sequence := 0 }

end Mindmachine

/-! ## Ranking records and the store (`gnostr.go`, `database.go`) -/

/-- The record type `RankingTarget`.  `Score` and `Mentions` are `int64`; `Score` only
ever receives the constants 0 and 400, and `Mentions` grows by one per tag held in
memory, so neither can leave the `int64` range and both are plain integers here.
`MentionMap` is `none` for a nil Go map. -/
structure RankingTarget where
  EventID : String
  Event : Nostr.Event
  Score : Int
  Mentions : Int
  MentionMap : Option (Finset String)
deriving DecidableEq

/-- The map type of `db.data`, from identifier to record. -/
abbrev Store := AList (fun _ : String => RankingTarget)

/-- The two package-level variables: `currentState.data` and `currentOrder`. -/
structure State where
  data : Store
  currentOrder : List RankingTarget

/-- The state at package initialisation: an empty map and a nil slice. -/
def State.init : State := { data := ∅, currentOrder := [] }

/-- The method `db.upsert`: `s.data[i.EventID] = i`. -/
def upsert (data : Store) (i : RankingTarget) : Store := data.insert i.EventID i

/-- The function `GetAll`. -/
def GetAll (st : State) : Store := st.data

/-- The function `Count`: `len(currentState.data)`. -/
def Count (st : State) : Nat := st.data.keys.length

/-- The function `CurrentOrder`. -/
def CurrentOrder (st : State) : List RankingTarget := st.currentOrder

/-- The function `HandleEvent` (`handler.go`): upsert a fresh record for the event.  The
named results `h` and `b` are never assigned, so the call returns their zero values. -/
def HandleEvent (event : Mindmachine.Event) (st : State) : State × Mindmachine.HashSeq × Bool :=
  let i : RankingTarget :=
    { EventID := event.ID, Event := event.Nostr, Score := 0, Mentions := 0,
      MentionMap := some ∅ }
  ({ st with data := upsert st.data i }, Mindmachine.HashSeq.zero, false)

/-- The constant `kvalue`. -/
def kvalue : Int := 400

/-- The body of the loop in `resetMentions`: `Mentions = 0`, `Score = kvalue`; every
other field, `MentionMap` included, is copied as it is. -/
def resetTarget (target : RankingTarget) : RankingTarget :=
  { target with Mentions := 0, Score := kvalue }

/-- The function `resetMentions`: a fresh map that receives, under each key of the
input, the reset copy of its record.  Each key is written once, so the order of the loop
does not show in the result. -/
def resetMentions (data : Store) : Store :=
  data.entries.foldr (fun e out => out.insert e.1 (resetTarget e.2)) ∅

/-- The values of the tags `target.Event.Tags.GetAll([]string{"e"})`, in order. -/
def eRefs (target : RankingTarget) : List String :=
  (target.Event.Tags.GetAll ["e"]).map Tag.Value

/-- The body of the inner loop of `CalculateMentions` (lines 125-138) for a tag value
`v` met on a record whose `EventID` is `src`.  An existing record gets `Mentions++` and
`src` added to its `MentionMap` (a panic when that map is nil); otherwise a placeholder
is stored. -/
def mention (src : String) (data : Store) (v : String) : Option Store :=
  match data.lookup v with
  | some current =>
    match current.MentionMap with
    | some m =>
      some (data.insert v
        { current with Mentions := current.Mentions + 1, MentionMap := some (insert src m) })
    | none => none
  | none =>
    some (data.insert v
      { EventID := v, Event := Nostr.Event.zero, Score := 400, Mentions := 1,
        MentionMap := some (singleton src) })

/-- One round of the outer loop of `CalculateMentions` (lines 122-140), at the map key
`k`: `target` is the record the map holds under `k` at that moment.  A key the map does
not hold yields nothing. -/
def visitKey (data : Store) (k : String) : Option Store :=
  match data.lookup k with
  | some target =>
    (target.Event.Tags.GetAll ["e"]).foldlM
      (fun d tag => mention target.EventID d (Tag.Value tag)) data
  | none => some data

/-- The outer loop of `CalculateMentions`, with `visit` the keys in the order `range`
produces them. -/
def mentionLoop (visit : List String) (data : Store) : Option Store :=
  visit.foldlM visitKey data

/-- The type of `sort.Slice` at `[]RankingTarget`: a comparison and a slice give the
rearranged slice. -/
abbrev SliceSorter :=
  (RankingTarget → RankingTarget → Bool) → List RankingTarget → List RankingTarget

/-- Go `sort.SliceStable`: the stable sort by `less`.  A stable sort has a single
possible result, computed here by insertion. -/
def sortSliceStable (less : RankingTarget → RankingTarget → Bool)
    (xs : List RankingTarget) : List RankingTarget :=
  xs.insertionSort (fun a b => less b a = false)

/-- Go `sort.Slice` on a short slice (up to 6 elements in every Go release, up to 12
since Go 1.19), where it runs its insertion sort: an element moves left while it is
`less` than its left neighbour, so equal elements keep their order. -/
def sortSliceSmall : SliceSorter := sortSliceStable

/-- The function `orderByRankings`: stable sort, `Score` descending. -/
def orderByRankings (xs : List RankingTarget) : List RankingTarget :=
  sortSliceStable (fun a b => decide (a.Score > b.Score)) xs

/-- The function `orderByMentions`: `sort.Slice`, `Mentions` descending. -/
def orderByMentions (sortSlice : SliceSorter) (xs : List RankingTarget) :
    List RankingTarget :=
  sortSlice (fun a b => decide (a.Mentions > b.Mentions)) xs

/-- The second loop of `CalculateMentions` (lines 143-146): the records appended to
`currentOrder`, with `snap` the keys in the order `range` produces them. -/
def collect (snap : List String) (data : Store) : List RankingTarget :=
  snap.filterMap (fun k => data.lookup k)

/-- The function `CalculateMentions`.  `sortSlice` is the behaviour of `sort.Slice`,
`visit` and `snap` are the key orders of its two `range` loops over the store; `none`
is a panic. -/
def CalculateMentions (sortSlice : SliceSorter) (visit snap : List String)
    (st : State) : Option State :=
  match mentionLoop visit (resetMentions st.data) with
  | some data =>
    some { data := data,
           currentOrder := orderByRankings (orderByMentions sortSlice (collect snap data)) }
  | none => none

/-! ## Notions used to state what a pass computes -/

/-- The mention edges a record contributes: one pair (value named, `EventID` of the
record) per tag returned by `GetAll([]string{"e"})`. -/
def srcPairs (t : RankingTarget) : List (String × String) :=
  (eRefs t).map (fun v => (v, t.EventID))

/-- The mention edges contributed by the record stored under `k`, if any. -/
def pairsAt (d : Store) (k : String) : List (String × String) :=
  match d.lookup k with
  | some t => srcPairs t
  | none => []

/-- All mention edges of a store. -/
def allPairs (d : Store) : List (String × String) :=
  d.entries.flatMap (fun e => srcPairs e.2)

/-- How many tags, over all records of the store, name `k`. -/
def mentionCount (d : Store) (k : String) : Nat :=
  (allPairs d).countP (fun p => decide (p.1 = k))

/-- The `EventID`s of the records of the store that name `k` in a tag. -/
def mentioners (d : Store) (k : String) : Finset String :=
  (((allPairs d).filter (fun p => decide (p.1 = k))).map Prod.snd).toFinset

/-- No record of the store has a nil `MentionMap`. -/
def NoNil (d : Store) : Prop :=
  ∀ k t, d.lookup k = some t → t.MentionMap ≠ none

/-- Every record is stored under its own `EventID`. -/
def KeyedByID (d : Store) : Prop :=
  ∀ k t, d.lookup k = some t → t.EventID = k

/-- A legal order for a `range` over a map that only grows during the loop: no key
twice, and every key present at the start is produced. -/
def RangeOrder (visit : List String) (d : Store) : Prop :=
  visit.Nodup ∧ ∀ k, k ∈ d → k ∈ visit

/-- A legal order for a `range` over a map that does not change during the loop: the
keys of the map, each once. -/
def SnapshotOrder (snap : List String) (d : Store) : Prop :=
  snap.Perm d.keys

/-- The contract of `sort.Slice` for a `less` that is a strict weak order: the result
is a rearrangement of the input in which no element is `less` than an earlier one. -/
def SortSliceSpec (sortSlice : SliceSorter) : Prop :=
  ∀ (less : RankingTarget → RankingTarget → Bool),
    (∀ a, less a a = false) →
    (∀ a b c, less a b = true → less b c = true → less a c = true) →
    (∀ a b c, less a b = false → less b c = false → less a c = false) →
    ∀ xs, (sortSlice less xs).Perm xs ∧
      (sortSlice less xs).Pairwise (fun a b => less b a = false)

/-- What a single mention edge `p` does to the slot of key `k`. -/
def bumpOne (k : String) (o : Option RankingTarget) (p : String × String) :
    Option RankingTarget :=
  if p.1 = k then
    match o with
    | some t =>
      some { t with Mentions := t.Mentions + 1, MentionMap := t.MentionMap.map (insert p.2) }
    | none =>
      some { EventID := k, Event := Nostr.Event.zero, Score := 400, Mentions := 1,
             MentionMap := some (singleton p.2) }
  else o

/-- The slot of key `k` after `n` mention edges with sources `S` have reached it. -/
def bumped (k : String) (o : Option RankingTarget) (n : Nat) (S : Finset String) :
    Option RankingTarget :=
  match o with
  | some t =>
    some { t with Mentions := t.Mentions + n, MentionMap := t.MentionMap.map (fun m => m ∪ S) }
  | none =>
    if n = 0 then none
    else some { EventID := k, Event := Nostr.Event.zero, Score := 400, Mentions := n,
                MentionMap := some S }

/-- The record a pass over the store `d` leaves under key `k`: an existing record keeps
its `EventID` and `Event`, gets `Score` 400, `Mentions` the number of tags naming `k`,
and its old `MentionMap` enlarged by the records naming `k`; a key that is named but not
stored gets a placeholder. -/
def passResult (d : Store) (k : String) : Option RankingTarget :=
  bumped k ((d.lookup k).map resetTarget) (mentionCount d k) (mentioners d k)

/-- The mention edges fed to the store one after the other. -/
def applyMentions (L : List (String × String)) (d : Store) : Option Store :=
  L.foldlM (fun d p => mention p.2 d p.1) d

/-- The states the package can reach: from the initial state by `HandleEvent` and by
`CalculateMentions` under any legal loop orders and any `sort.Slice`. -/
inductive Reachable : State → Prop
  | init : Reachable State.init
  | handle (event : Mindmachine.Event) (st : State) :
      Reachable st → Reachable (HandleEvent event st).1
  | pass (sortSlice : SliceSorter) (visit snap : List String) (st st1 : State) :
      Reachable st → SortSliceSpec sortSlice →
      RangeOrder visit (resetMentions st.data) →
      CalculateMentions sortSlice visit snap st = some st1 →
      SnapshotOrder snap st1.data → Reachable st1

/-- Go `len(m)` of a `MentionMap`: 0 for a nil map. -/
def mapLen (m : Option (Finset String)) : Nat :=
  match m with
  | some s => s.card
  | none => 0

/-- How many records of the store carry at least one tag, among those returned by
`GetAll([]string{"e"})`, whose value is `k`. -/
def referrers (d : Store) (k : String) : Nat :=
  (d.entries.filter (fun e => decide (k ∈ eRefs e.2))).length

/-- The `MentionMap` the store holds under `k`, as a set: empty when there is no record
under `k` or its map is nil. -/
def oldMap (d : Store) (k : String) : Finset String :=
  match d.lookup k with
  | some t => t.MentionMap.getD ∅
  | none => ∅

/-- The records of a store, in the order of its entries. -/
def records (d : Store) : List RankingTarget := d.entries.map (fun e => e.2)

/-- A run of `HandleEvent` calls, one per event of the list, in order. -/
def ingest (events : List Mindmachine.Event) (st : State) : State :=
  events.foldl (fun s e => (HandleEvent e s).1) st

/-- Every identifier in a `MentionMap` of the store is a key of the store. -/
def MapInStore (d : Store) : Prop :=
  ∀ k t m, d.lookup k = some t → t.MentionMap = some m → ∀ x ∈ m, x ∈ d

/-- The outer loop of a pass as the specification words it: the records visited are
those present at the start of the pass, each read from that starting store `d0`, in the
order `order` of its keys; records stored during the loop are never visited. -/
def snapshotLoop (order : List String) (d0 : Store) : Option Store :=
  order.foldlM (fun d k =>
    match d0.lookup k with
    | some target =>
      (target.Event.Tags.GetAll ["e"]).foldlM
        (fun d1 tag => mention target.EventID d1 (Tag.Value tag)) d
    | none => some d) d0

/-! ## Example inputs -/

/-- An event with the given identifier and tags, of kind 1. -/
def mkEvent (id : String) (tags : Tags) : Mindmachine.Event :=
  { ID := id, PubKey := "", CreatedAt := 0, Kind := 1, Tags := tags, Content := "", Sig := "" }

/-- The state after ingesting one event `A` that names `B` in two `e` tags. -/
def stDup : State :=
  (HandleEvent (mkEvent "A" [["e", "B"], ["e", "B"]]) State.init).1

/-- The state after ingesting `E1` (no tags), then `E2` and `E3`, each naming `E1`. -/
def stE : State :=
  (HandleEvent (mkEvent "E3" [["e", "E1"]])
    (HandleEvent (mkEvent "E2" [["e", "E1"]])
      (HandleEvent (mkEvent "E1" []) State.init).1).1).1

/-- The state after ingesting one event `A` that names `B` once. -/
def stAB : State := (HandleEvent (mkEvent "A" [["e", "B"]]) State.init).1

/-- Ingest `A` naming `B`, run a pass, ingest an event with the same identifier `A` and
no tags, run a second pass. -/
def stStale : Option State :=
  (CalculateMentions sortSliceSmall ["A"] ["A", "B"] stAB).bind (fun s =>
    CalculateMentions sortSliceSmall ["A", "B"] ["A", "B"] (HandleEvent (mkEvent "A" []) s).1)

/-- A record with the given identifier, score and mentions, and nothing else. -/
def mkRecord (id : String) (score mentions : Int) : RankingTarget :=
  { EventID := id, Event := Nostr.Event.zero, Score := score, Mentions := mentions,
    MentionMap := some ∅ }

/-- Four records with two scores and three mention counts. -/
def exRecords : List RankingTarget :=
  [mkRecord "a" 400 1, mkRecord "b" 500 0, mkRecord "c" 400 3, mkRecord "d" 500 1]

/-- The state after ingesting one event `A` whose only tag is `["e"]`, a tag without a
value. -/
def stBare : State := (HandleEvent (mkEvent "A" [["e"]]) State.init).1

/-- A store as a decoded blob can give it: `A` names `B`, and the record `B` has a nil
`MentionMap`. -/
def stNil : State :=
  { data := (AList.insert "B"
      { EventID := "B", Event := Nostr.Event.zero, Score := 0, Mentions := 0,
        MentionMap := none }
      (AList.insert "A"
        { EventID := "A", Event := (mkEvent "A" [["e", "B"]]).Nostr, Score := 0,
          Mentions := 0, MentionMap := some ∅ } ∅)),
    currentOrder := [] }

/-- The state after ingesting one event `A` that names itself. -/
def stLoop : State := (HandleEvent (mkEvent "A" [["e", "A"]]) State.init).1

/-- The values of the tags of the record whose name is exactly `e`, in order: the tags
the claims call `"e"` tags.  (`eRefs` also takes the tags whose name only begins with
`e`, as `GetAll([]string{"e"})` does.) -/
def exactERefs (target : RankingTarget) : List String :=
  (target.Event.Tags.filter (fun tag => decide (tag.head? = some "e"))).map Tag.Value

/-- The state after ingesting one event `A` with a tag `e` and a tag `expiration`, both
with the value `B`. -/
def stExp : State :=
  (HandleEvent (mkEvent "A" [["e", "B"], ["expiration", "B"]]) State.init).1

/-- The state after ingesting one note `A` whose only tag is `expiration`. -/
def stNote : State :=
  (HandleEvent (mkEvent "A" [["expiration", "1700000000"]]) State.init).1

/-- The state after ingesting one event `A` with a tag `e` and a tag `emoji`, both with
the value `A`. -/
def stEmoji : State :=
  (HandleEvent (mkEvent "A" [["e", "A"], ["emoji", "A"]]) State.init).1

/-! ## The store -/

theorem lookup_foldr_reset (l : List (Sigma (fun _ : String => RankingTarget))) (k : String) :
    (l.foldr (fun e out => AList.insert e.1 (resetTarget e.2) out) (∅ : Store)).lookup k
      = (l.dlookup k).map resetTarget := by
  induction l with
  | nil => simp [AList.lookup]
  | cons e l ih =>
    obtain ⟨j, t⟩ := e
    by_cases h : k = j
    · subst h
      simp [AList.lookup_insert, List.dlookup_cons_eq]
    · have h2 : j ≠ k := fun e => h e.symm
      simp only [List.foldr_cons]
      rw [AList.lookup_insert_ne h, ih, List.dlookup_cons_ne _ _ h]

theorem lookup_resetMentions (d : Store) (k : String) :
    (resetMentions d).lookup k = (d.lookup k).map resetTarget := by
  unfold resetMentions
  rw [lookup_foldr_reset]
  rfl

theorem mem_resetMentions (d : Store) (k : String) : k ∈ resetMentions d ↔ k ∈ d := by
  rw [← AList.lookup_isSome, ← AList.lookup_isSome, lookup_resetMentions]
  cases d.lookup k <;> simp

theorem noNil_resetMentions {d : Store} (h : NoNil d) : NoNil (resetMentions d) := by
  intro k t hk
  rw [lookup_resetMentions] at hk
  cases hd : d.lookup k with
  | none => simp [hd] at hk
  | some t0 =>
    simp [hd] at hk
    subst hk
    exact h k t0 hd

theorem mention_lookup {src v : String} {d d1 : Store} (h : mention src d v = some d1)
    (k : String) : d1.lookup k = bumpOne k (d.lookup k) (v, src) := by
  unfold mention at h
  unfold bumpOne
  cases hv : d.lookup v with
  | none =>
    simp only [hv, Option.some.injEq] at h
    subst h
    by_cases hk : k = v
    · subst hk
      simp [AList.lookup_insert, hv]
    · have : ¬ v = k := fun e => hk e.symm
      simp [AList.lookup_insert_ne hk, this]
  | some cur =>
    simp only [hv] at h
    cases hm : cur.MentionMap with
    | none => simp [hm] at h
    | some m =>
      simp only [hm, Option.some.injEq] at h
      subst h
      by_cases hk : k = v
      · subst hk
        simp [AList.lookup_insert, hv, hm]
      · have : ¬ v = k := fun e => hk e.symm
        simp [AList.lookup_insert_ne hk, this]

theorem mention_isSome {d : Store} (h : NoNil d) (src v : String) :
    ∃ d1, mention src d v = some d1 := by
  unfold mention
  cases hv : d.lookup v with
  | none => exact ⟨_, rfl⟩
  | some cur =>
    cases hm : cur.MentionMap with
    | none => exact absurd hm (h v cur hv)
    | some m => simp only [hm]; exact ⟨_, rfl⟩

theorem bumpOne_noNil {k : String} {o : Option RankingTarget} (p : String × String)
    (h : ∀ t, o = some t → t.MentionMap ≠ none) :
    ∀ t, bumpOne k o p = some t → t.MentionMap ≠ none := by
  intro t ht
  unfold bumpOne at ht
  split_ifs at ht with hp
  · cases o with
    | none => simp at ht; subst ht; simp
    | some t0 =>
      simp at ht; subst ht
      have := h t0 rfl
      cases hm : t0.MentionMap with
      | none => exact absurd hm this
      | some m => simp
  · exact h t ht

theorem mention_noNil {src v : String} {d d1 : Store} (hd : NoNil d)
    (h : mention src d v = some d1) : NoNil d1 := by
  intro k t hk
  rw [mention_lookup h k] at hk
  exact bumpOne_noNil (v, src) (fun t0 h0 => hd k t0 h0) t hk

/-! ## Feeding mention edges to the store -/

theorem applyMentions_nil (d : Store) : applyMentions [] d = some d := rfl

theorem applyMentions_cons (p : String × String) (L : List (String × String)) (d : Store) :
    applyMentions (p :: L) d = (mention p.2 d p.1).bind (applyMentions L) := by
  unfold applyMentions
  rw [List.foldlM_cons]
  rfl

theorem applyMentions_append (L1 L2 : List (String × String)) (d : Store) :
    applyMentions (L1 ++ L2) d = (applyMentions L1 d).bind (applyMentions L2) := by
  unfold applyMentions
  rw [List.foldlM_append]
  rfl

theorem applyMentions_spec (L : List (String × String)) :
    ∀ d : Store, NoNil d →
      ∃ d1, applyMentions L d = some d1 ∧ NoNil d1 ∧
        ∀ k, d1.lookup k = L.foldl (bumpOne k) (d.lookup k) := by
  induction L with
  | nil => intro d hd; exact ⟨d, rfl, hd, fun _ => rfl⟩
  | cons p L ih =>
    intro d hd
    obtain ⟨d1, h1⟩ := mention_isSome hd p.2 p.1
    obtain ⟨d2, h2, hn2, hl2⟩ := ih d1 (mention_noNil hd h1)
    refine ⟨d2, ?_, hn2, ?_⟩
    · rw [applyMentions_cons, h1]; exact h2
    · intro k
      rw [hl2 k, mention_lookup h1 k]
      rfl

theorem applyMentions_lookup {L : List (String × String)} :
    ∀ {d d1 : Store}, applyMentions L d = some d1 →
      ∀ k, d1.lookup k = L.foldl (bumpOne k) (d.lookup k) := by
  induction L with
  | nil => intro d d1 h k; simp [applyMentions_nil] at h; subst h; rfl
  | cons p L ih =>
    intro d d1 h k
    rw [applyMentions_cons] at h
    cases hm : mention p.2 d p.1 with
    | none => simp [hm] at h
    | some d0 =>
      simp only [hm, Option.some_bind] at h
      rw [ih h k, mention_lookup hm k]
      rfl

theorem foldl_bumpOne_some (k : String) (L : List (String × String)) :
    ∀ t : RankingTarget, L.foldl (bumpOne k) (some t)
      = bumped k (some t) (L.countP (fun p => decide (p.1 = k)))
          (((L.filter (fun p => decide (p.1 = k))).map Prod.snd).toFinset) := by
  induction L with
  | nil => intro t; cases t with | mk a b c e m => cases m <;> simp [bumped]
  | cons p L ih =>
    intro t
    by_cases hp : p.1 = k
    · have h1 : bumpOne k (some t) p = some
          { t with Mentions := t.Mentions + 1, MentionMap := t.MentionMap.map (insert p.2) } := by
        simp [bumpOne, hp]
      rw [List.foldl_cons, h1, ih]
      simp only [bumped, List.countP_cons, hp, decide_True, if_true, List.filter_cons,
        List.map_cons, List.toFinset_cons]
      congr 2
      · push_cast; ring
      · cases t.MentionMap with
        | none => rfl
        | some m =>
          simp only [Option.map_some']
          congr 1
          ext x
          simp only [Finset.mem_union, Finset.mem_insert]
          tauto
    · have h1 : bumpOne k (some t) p = some t := by simp [bumpOne, hp]
      rw [List.foldl_cons, h1, ih]
      simp [List.countP_cons, hp, List.filter_cons]

theorem foldl_bumpOne (k : String) (L : List (String × String)) (o : Option RankingTarget) :
    L.foldl (bumpOne k) o
      = bumped k o (L.countP (fun p => decide (p.1 = k)))
          (((L.filter (fun p => decide (p.1 = k))).map Prod.snd).toFinset) := by
  cases o with
  | some t => exact foldl_bumpOne_some k L t
  | none =>
    induction L with
    | nil => simp [bumped]
    | cons p L ih =>
      by_cases hp : p.1 = k
      · have h1 : bumpOne k none p = some
            { EventID := k, Event := Nostr.Event.zero, Score := 400, Mentions := 1,
              MentionMap := some (singleton p.2) } := by
          simp [bumpOne, hp]
        rw [List.foldl_cons, h1, foldl_bumpOne_some]
        simp only [bumped, List.countP_cons, hp, decide_True, if_true, List.filter_cons,
          List.map_cons, List.toFinset_cons, Nat.add_one_ne_zero, if_false, Option.map_some']
        congr 2
        push_cast; ring
      · have h1 : bumpOne k none p = none := by simp [bumpOne, hp]
        rw [List.foldl_cons, h1, ih]
        simp [List.countP_cons, hp, List.filter_cons]

/-! ## The outer loop as one stream of mention edges -/

theorem eRefs_zero (k : String) (S : Option (Finset String)) (a b : Int) :
    srcPairs { EventID := k, Event := Nostr.Event.zero, Score := a, Mentions := b,
               MentionMap := S } = [] := rfl

theorem srcPairs_resetTarget (t : RankingTarget) : srcPairs (resetTarget t) = srcPairs t := rfl

theorem pairsAt_bumpOne (k : String) (o : Option RankingTarget) (p : String × String) :
    (match bumpOne k o p with
      | some t => srcPairs t
      | none => [])
    = (match o with
      | some t => srcPairs t
      | none => []) := by
  unfold bumpOne
  split_ifs with hp
  · cases o with
    | none => rfl
    | some t => rfl
  · rfl

theorem pairsAt_mention {src v : String} {d d1 : Store} (h : mention src d v = some d1)
    (k : String) : pairsAt d1 k = pairsAt d k := by
  unfold pairsAt
  rw [mention_lookup h k]
  exact pairsAt_bumpOne k (d.lookup k) (v, src)

theorem pairsAt_applyMentions {L : List (String × String)} :
    ∀ {d d1 : Store}, applyMentions L d = some d1 → ∀ k, pairsAt d1 k = pairsAt d k := by
  induction L with
  | nil => intro d d1 h k; simp [applyMentions_nil] at h; subst h; rfl
  | cons p L ih =>
    intro d d1 h k
    rw [applyMentions_cons] at h
    cases hm : mention p.2 d p.1 with
    | none => simp [hm] at h
    | some d0 =>
      simp only [hm, Option.some_bind] at h
      rw [ih h k, pairsAt_mention hm k]

theorem pairsAt_resetMentions (d : Store) (k : String) :
    pairsAt (resetMentions d) k = pairsAt d k := by
  unfold pairsAt
  rw [lookup_resetMentions]
  cases d.lookup k <;> rfl

theorem visitKey_eq (d : Store) (k : String) :
    visitKey d k = applyMentions (pairsAt d k) d := by
  unfold visitKey pairsAt
  cases hk : d.lookup k with
  | none => rfl
  | some target =>
    simp only [applyMentions, srcPairs, eRefs, List.foldlM_map]

theorem mentionLoop_eq (visit : List String) :
    ∀ d : Store, mentionLoop visit d = applyMentions (visit.flatMap (pairsAt d)) d := by
  induction visit with
  | nil => intro d; rfl
  | cons k ks ih =>
    intro d
    have h0 : mentionLoop (k :: ks) d = (visitKey d k).bind (mentionLoop ks) := by
      unfold mentionLoop
      rw [List.foldlM_cons]
      rfl
    rw [h0, List.flatMap_cons, applyMentions_append, visitKey_eq]
    cases h1 : applyMentions (pairsAt d k) d with
    | none => rfl
    | some d1 =>
      simp only [Option.some_bind]
      rw [ih d1]
      have : pairsAt d1 = pairsAt d := funext (pairsAt_applyMentions h1)
      rw [this]

theorem flatMap_nil_of_forall {α β : Type} (l : List α) (f : α → List β)
    (h : ∀ a ∈ l, f a = []) : l.flatMap f = [] := by
  induction l with
  | nil => rfl
  | cons a l ih =>
    rw [List.flatMap_cons, h a (List.mem_cons_self a l),
      ih (fun b hb => h b (List.mem_cons_of_mem a hb))]
    rfl

theorem flatMap_keys_eq (l : List (Sigma (fun _ : String => RankingTarget)))
    (f : String → List (String × String))
    (h : ∀ e ∈ l, f e.1 = srcPairs e.2) :
    (l.map Sigma.fst).flatMap f = l.flatMap (fun e => srcPairs e.2) := by
  induction l with
  | nil => rfl
  | cons e l ih =>
    simp only [List.map_cons, List.flatMap_cons]
    rw [h e (List.mem_cons_self e l), ih (fun b hb => h b (List.mem_cons_of_mem e hb))]

theorem flatMap_keys (d : Store) : d.keys.flatMap (pairsAt d) = allPairs d := by
  unfold allPairs AList.keys List.keys
  apply flatMap_keys_eq
  intro e he
  obtain ⟨j, t⟩ := e
  have : t ∈ d.lookup j := AList.mem_lookup_iff.mpr he
  unfold pairsAt
  rw [Option.mem_def] at this
  rw [this]

theorem pairsAt_of_not_mem {d : Store} {k : String} (h : k ∉ d) : pairsAt d k = [] := by
  unfold pairsAt
  rw [AList.lookup_eq_none.mpr h]

/-- Any legal `range` order yields the mention edges of the store, up to their order. -/
theorem flatMap_rangeOrder {d : Store} {visit : List String} (h : RangeOrder visit d) :
    (visit.flatMap (pairsAt d)).Perm (allPairs d) := by
  obtain ⟨hnd, hcov⟩ := h
  have hsplit : (visit.filter (fun k => decide (k ∈ d)) ++
      visit.filter (fun k => !decide (k ∈ d))).Perm visit :=
    List.filter_append_perm _ visit
  have hkeys : (visit.filter (fun k => decide (k ∈ d))).Perm d.keys := by
    rw [List.perm_ext_iff_of_nodup (hnd.filter _) d.keys_nodup]
    intro a
    simp only [List.mem_filter, decide_eq_true_eq, ← AList.mem_keys]
    exact ⟨fun h => h.2, fun h => ⟨hcov a h, h⟩⟩
  have hrest : (visit.filter (fun k => !decide (k ∈ d))).flatMap (pairsAt d) = [] := by
    apply flatMap_nil_of_forall
    intro a ha
    simp only [List.mem_filter, Bool.not_eq_true', decide_eq_false_iff_not] at ha
    exact pairsAt_of_not_mem ha.2
  have h1 := (hsplit.flatMap_right (pairsAt d)).symm
  rw [List.flatMap_append, hrest, List.append_nil] at h1
  have h2 := hkeys.flatMap_right (pairsAt d)
  rw [flatMap_keys] at h2
  exact h1.trans h2

theorem rangeOrder_reset {d : Store} {visit : List String}
    (h : RangeOrder visit (resetMentions d)) : RangeOrder visit d :=
  ⟨h.1, fun k hk => h.2 k ((mem_resetMentions d k).mpr hk)⟩

/-- The outcome of the first loop of a pass, record by record: under any legal `range`
order the loop ends without a panic and leaves `passResult d k` under every key `k`. -/
theorem mentionLoop_spec {d : Store} {visit : List String} (hn : NoNil d)
    (hv : RangeOrder visit (resetMentions d)) :
    ∃ d1, mentionLoop visit (resetMentions d) = some d1 ∧ NoNil d1 ∧
      ∀ k, d1.lookup k = passResult d k := by
  obtain ⟨d1, h1, hn1, hl⟩ :=
    applyMentions_spec (visit.flatMap (pairsAt (resetMentions d))) (resetMentions d)
      (noNil_resetMentions hn)
  refine ⟨d1, ?_, hn1, ?_⟩
  · rw [mentionLoop_eq]; exact h1
  · intro k
    have hf : pairsAt (resetMentions d) = pairsAt d := funext (pairsAt_resetMentions d)
    have hp := flatMap_rangeOrder (rangeOrder_reset hv)
    rw [hl k, foldl_bumpOne, hf, lookup_resetMentions]
    unfold passResult mentionCount mentioners
    rw [hp.countP_eq, List.toFinset_eq_of_perm _ _ ((hp.filter _).map Prod.snd)]

/-! ## A whole pass -/

theorem CalculateMentions_data {ss : SliceSorter} {visit snap : List String} {st st1 : State}
    (h : CalculateMentions ss visit snap st = some st1) :
    mentionLoop visit (resetMentions st.data) = some st1.data ∧
      st1.currentOrder = orderByRankings (orderByMentions ss (collect snap st1.data)) := by
  unfold CalculateMentions at h
  cases hm : mentionLoop visit (resetMentions st.data) with
  | none => simp [hm] at h
  | some data =>
    simp only [hm, Option.some.injEq] at h
    subst h
    exact ⟨rfl, rfl⟩

/-- A pass over a store without nil maps, under a legal `range` order, ends without a
panic, and the store it leaves holds `passResult` under every key. -/
theorem CalculateMentions_spec (ss : SliceSorter) {visit : List String} (snap : List String)
    {st : State} (hn : NoNil st.data) (hv : RangeOrder visit (resetMentions st.data)) :
    ∃ st1, CalculateMentions ss visit snap st = some st1 ∧ NoNil st1.data ∧
      (∀ k, st1.data.lookup k = passResult st.data k) ∧
      st1.currentOrder = orderByRankings (orderByMentions ss (collect snap st1.data)) := by
  obtain ⟨d1, h1, hn1, hl⟩ := mentionLoop_spec hn hv
  refine ⟨{ data := d1, currentOrder := orderByRankings (orderByMentions ss (collect snap d1)) },
    ?_, hn1, hl, rfl⟩
  unfold CalculateMentions
  rw [h1]

theorem passResult_eventID {d : Store} (hk : KeyedByID d) {k : String} {t : RankingTarget}
    (h : passResult d k = some t) : t.EventID = k := by
  unfold passResult bumped at h
  cases hd : d.lookup k with
  | some t0 =>
    simp only [hd, Option.map_some', Option.some.injEq] at h
    subst h
    exact hk k t0 hd
  | none =>
    simp only [hd, Option.map_none'] at h
    split_ifs at h
    simp only [Option.some.injEq] at h
    subst h
    rfl

theorem passResult_score {d : Store} {k : String} {t : RankingTarget}
    (h : passResult d k = some t) : t.Score = 400 := by
  unfold passResult bumped at h
  cases hd : d.lookup k with
  | some t0 =>
    simp only [hd, Option.map_some', Option.some.injEq] at h
    subst h
    rfl
  | none =>
    simp only [hd, Option.map_none'] at h
    split_ifs at h
    simp only [Option.some.injEq] at h
    subst h
    rfl

theorem passResult_mentions {d : Store} {k : String} {t : RankingTarget}
    (h : passResult d k = some t) : t.Mentions = mentionCount d k := by
  unfold passResult bumped at h
  cases hd : d.lookup k with
  | some t0 =>
    simp only [hd, Option.map_some', Option.some.injEq] at h
    subst h
    simp [resetTarget]
  | none =>
    simp only [hd, Option.map_none'] at h
    split_ifs at h
    simp only [Option.some.injEq] at h
    subst h
    rfl

theorem passResult_srcPairs {d : Store} (k : String) :
    (match passResult d k with
      | some t => srcPairs t
      | none => []) = pairsAt d k := by
  unfold passResult bumped pairsAt
  cases hd : d.lookup k with
  | some t0 => rfl
  | none =>
    simp only [Option.map_none']
    split_ifs <;> rfl

theorem passResult_isSome_of_mem {d : Store} {k : String} (h : k ∈ d) :
    (passResult d k).isSome = true := by
  unfold passResult bumped
  obtain ⟨t0, ht0⟩ := Option.isSome_iff_exists.mp (AList.lookup_isSome.mpr h)
  simp [ht0]

/-- A store that agrees with `passResult d` has the mention edges of `d`. -/
theorem allPairs_of_passResult {d d1 : Store} (hl : ∀ k, d1.lookup k = passResult d k) :
    (allPairs d1).Perm (allPairs d) := by
  have hf : pairsAt d1 = pairsAt d := by
    funext k
    have := passResult_srcPairs (d := d) k
    rw [← hl k] at this
    exact this
  have hr : RangeOrder d1.keys d := by
    refine ⟨d1.keys_nodup, fun k hk => ?_⟩
    rw [← AList.mem_keys, ← AList.lookup_isSome, hl k]
    exact passResult_isSome_of_mem hk
  have := flatMap_rangeOrder hr
  rw [← hf, flatMap_keys] at this
  exact this

theorem mentionCount_of_passResult {d d1 : Store} (hl : ∀ k, d1.lookup k = passResult d k)
    (k : String) : mentionCount d1 k = mentionCount d k := by
  unfold mentionCount
  exact (allPairs_of_passResult hl).countP_eq _

theorem mentioners_of_passResult {d d1 : Store} (hl : ∀ k, d1.lookup k = passResult d k)
    (k : String) : mentioners d1 k = mentioners d k := by
  unfold mentioners
  exact List.toFinset_eq_of_perm _ _ (((allPairs_of_passResult hl).filter _).map Prod.snd)

/-! ## Invariants of the reachable states -/

theorem HandleEvent_data (event : Mindmachine.Event) (st : State) :
    (HandleEvent event st).1.data = st.data.insert event.ID
      { EventID := event.ID, Event := event.Nostr, Score := 0, Mentions := 0,
        MentionMap := some ∅ } := rfl

theorem HandleEvent_order (event : Mindmachine.Event) (st : State) :
    (HandleEvent event st).1.currentOrder = st.currentOrder := rfl

theorem noNil_HandleEvent {st : State} (hn : NoNil st.data) (event : Mindmachine.Event) :
    NoNil (HandleEvent event st).1.data := by
  intro k t hk
  rw [HandleEvent_data] at hk
  by_cases h : k = event.ID
  · subst h
    rw [AList.lookup_insert] at hk
    simp only [Option.some.injEq] at hk
    subst hk
    simp
  · rw [AList.lookup_insert_ne h] at hk
    exact hn k t hk

theorem keyed_HandleEvent {st : State} (hn : KeyedByID st.data) (event : Mindmachine.Event) :
    KeyedByID (HandleEvent event st).1.data := by
  intro k t hk
  rw [HandleEvent_data] at hk
  by_cases h : k = event.ID
  · subst h
    rw [AList.lookup_insert] at hk
    simp only [Option.some.injEq] at hk
    subst hk
    rfl
  · rw [AList.lookup_insert_ne h] at hk
    exact hn k t hk

theorem reachable_inv {st : State} (h : Reachable st) : NoNil st.data ∧ KeyedByID st.data := by
  induction h with
  | init =>
    constructor
    · intro k t hk; simp [State.init, AList.lookup_empty] at hk
    · intro k t hk; simp [State.init, AList.lookup_empty] at hk
  | handle event st _ ih => exact ⟨noNil_HandleEvent ih.1 event, keyed_HandleEvent ih.2 event⟩
  | pass ss visit snap st st1 _ _ hv hc _ ih =>
    obtain ⟨st2, h2, hn2, hl2, _⟩ := CalculateMentions_spec ss snap ih.1 hv
    rw [hc] at h2
    simp only [Option.some.injEq] at h2
    subst h2
    exact ⟨hn2, fun k t hk => passResult_eventID ih.2 (by rw [← hl2 k]; exact hk)⟩

/-! ## Sorting -/

theorem sortSliceStable_perm (less : RankingTarget → RankingTarget → Bool)
    (xs : List RankingTarget) : (sortSliceStable less xs).Perm xs :=
  List.perm_insertionSort _ xs

theorem sortSliceStable_sorted (less : RankingTarget → RankingTarget → Bool)
    (hirr : ∀ a, less a a = false)
    (htr : ∀ a b c, less a b = true → less b c = true → less a c = true)
    (hneg : ∀ a b c, less a b = false → less b c = false → less a c = false)
    (xs : List RankingTarget) :
    (sortSliceStable less xs).Pairwise (fun a b => less b a = false) := by
  haveI : IsTotal RankingTarget (fun a b => less b a = false) := by
    constructor
    intro a b
    cases hab : less b a with
    | false => exact Or.inl rfl
    | true =>
      right
      cases hba : less a b with
      | false => rfl
      | true =>
        have := htr a b a hba hab
        rw [hirr a] at this
        exact absurd this (by decide)
  haveI : IsTrans RankingTarget (fun a b => less b a = false) :=
    ⟨fun a b c hab hbc => hneg c b a hbc hab⟩
  exact List.sorted_insertionSort (fun a b => less b a = false) xs

/-- The insertion sort that `sort.Slice` runs on short slices meets the contract of
`sort.Slice`. -/
theorem sortSliceSmall_spec : SortSliceSpec sortSliceSmall :=
  fun less hirr htr hneg xs =>
    ⟨sortSliceStable_perm less xs, sortSliceStable_sorted less hirr htr hneg xs⟩

theorem orderByMentions_spec {ss : SliceSorter} (hs : SortSliceSpec ss)
    (xs : List RankingTarget) :
    (orderByMentions ss xs).Perm xs ∧
      (orderByMentions ss xs).Pairwise (fun a b => a.Mentions ≥ b.Mentions) := by
  have h := hs (fun a b => decide (a.Mentions > b.Mentions))
    (fun a => by simp)
    (fun a b c hab hbc => by
      simp only [decide_eq_true_eq] at hab hbc ⊢
      omega)
    (fun a b c hab hbc => by
      simp only [decide_eq_false_iff_not] at hab hbc ⊢
      omega)
    xs
  refine ⟨h.1, h.2.imp ?_⟩
  intro a b hab
  simp only [decide_eq_false_iff_not] at hab
  omega

/-- Inserting by `Score` into a list ordered by `Score` and then `Mentions` keeps that
order when the new record has at least the `Mentions` of every record of the list. -/
theorem orderedInsert_lex (a : RankingTarget) :
    ∀ s : List RankingTarget,
      s.Pairwise (fun x y => x.Score > y.Score ∨ (x.Score = y.Score ∧ x.Mentions ≥ y.Mentions)) →
      (∀ b ∈ s, a.Mentions ≥ b.Mentions) →
      (s.orderedInsert (fun x y => decide (y.Score > x.Score) = false) a).Pairwise
        (fun x y => x.Score > y.Score ∨ (x.Score = y.Score ∧ x.Mentions ≥ y.Mentions)) := by
  intro s
  induction s with
  | nil => intro _ _; simp
  | cons b s ih =>
    intro hs hm
    rw [List.pairwise_cons] at hs
    by_cases hab : decide (b.Score > a.Score) = false
    · rw [List.orderedInsert, if_pos hab]
      simp only [decide_eq_false_iff_not] at hab
      refine List.pairwise_cons.mpr ⟨?_, List.pairwise_cons.mpr hs⟩
      intro c hc
      rcases List.mem_cons.mp hc with rfl | hc
      · have := hm c (List.mem_cons_self _ _)
        omega
      · have h1 := hm c (List.mem_cons_of_mem _ hc)
        have h2 := hs.1 c hc
        omega
    · rw [List.orderedInsert, if_neg hab]
      simp only [decide_eq_false_iff_not, not_not] at hab
      refine List.pairwise_cons.mpr ⟨?_, ih hs.2 (fun c hc => hm c (List.mem_cons_of_mem _ hc))⟩
      intro c hc
      rcases (List.mem_orderedInsert _).mp hc with rfl | hc
      · left; exact hab
      · exact hs.1 c hc

theorem orderByRankings_lex :
    ∀ xs : List RankingTarget, xs.Pairwise (fun a b => a.Mentions ≥ b.Mentions) →
      (orderByRankings xs).Pairwise
        (fun x y => x.Score > y.Score ∨ (x.Score = y.Score ∧ x.Mentions ≥ y.Mentions)) := by
  intro xs
  induction xs with
  | nil => intro _; simp [orderByRankings, sortSliceStable]
  | cons a l ih =>
    intro h
    rw [List.pairwise_cons] at h
    have hrec := ih h.2
    unfold orderByRankings sortSliceStable at hrec ⊢
    rw [List.insertionSort]
    apply orderedInsert_lex a _ hrec
    intro b hb
    exact h.1 b ((List.perm_insertionSort _ l).mem_iff.mp hb)

/-! ## Reading `mentionCount` and `mentioners` -/

theorem refs_replicate (k src : String) (vs : List String) :
    (((vs.map (fun v => (v, src))).filter (fun p => decide (p.1 = k))).map Prod.snd)
      = List.replicate (vs.count k) src := by
  induction vs with
  | nil => rfl
  | cons v vs ih =>
    by_cases h : v = k
    · subst h
      simp only [List.map_cons, List.filter_cons, decide_True, if_true, List.count_cons_self,
        List.replicate_succ]
      rw [ih]
    · have h2 : (v == k) = false := by simpa using h
      simp only [List.map_cons, List.filter_cons, h, decide_False, List.count_cons, h2]
      simpa using ih

/-- The sources of the edges into `k`, listed record by record. -/
theorem sources_eq (d : Store) (k : String) :
    (((allPairs d).filter (fun p => decide (p.1 = k))).map Prod.snd)
      = d.entries.flatMap (fun e => List.replicate ((eRefs e.2).count k) e.2.EventID) := by
  unfold allPairs
  generalize d.entries = l
  induction l with
  | nil => rfl
  | cons e l ih =>
    simp only [List.flatMap_cons, List.filter_append, List.map_append]
    rw [ih]
    congr 1
    exact refs_replicate k e.2.EventID (eRefs e.2)

theorem mentionCount_eq_length (d : Store) (k : String) :
    mentionCount d k
      = (((allPairs d).filter (fun p => decide (p.1 = k))).map Prod.snd).length := by
  unfold mentionCount
  rw [List.length_map, List.countP_eq_length_filter]

/-- The number `mentionCount d k` adds up, over the records of the store, the number of
their tags whose value is `k`. -/
theorem mentionCount_eq_sum (d : Store) (k : String) :
    mentionCount d k = (d.entries.map (fun e => (eRefs e.2).count k)).sum := by
  rw [mentionCount_eq_length, sources_eq]
  generalize d.entries = l
  induction l with
  | nil => rfl
  | cons e l ih =>
    simp only [List.flatMap_cons, List.length_append, List.length_replicate, List.map_cons,
      List.sum_cons]
    rw [ih]

/-- The set `mentioners d k` holds the `EventID`s of the records with a tag whose value is
`k`. -/
theorem mem_mentioners (d : Store) (k x : String) :
    x ∈ mentioners d k ↔ ∃ e ∈ d.entries, e.2.EventID = x ∧ k ∈ eRefs e.2 := by
  unfold mentioners
  rw [List.mem_toFinset, sources_eq, List.mem_flatMap]
  constructor
  · rintro ⟨e, he, hx⟩
    rw [List.mem_replicate] at hx
    exact ⟨e, he, hx.2.symm, List.count_pos_iff.mp (Nat.pos_of_ne_zero hx.1)⟩
  · rintro ⟨e, he, hx, hk⟩
    refine ⟨e, he, ?_⟩
    rw [List.mem_replicate]
    exact ⟨Nat.pos_iff_ne_zero.mp (List.count_pos_iff.mpr hk), hx.symm⟩

theorem nodup_sources (k : String) (l : List (Sigma (fun _ : String => RankingTarget)))
    (hnd : (l.map Sigma.fst).Nodup)
    (hid : ∀ e ∈ l, e.2.EventID = e.1)
    (hone : ∀ e ∈ l, (eRefs e.2).count k ≤ 1) :
    (l.flatMap (fun e => List.replicate ((eRefs e.2).count k) e.2.EventID)).Nodup := by
  induction l with
  | nil => simp
  | cons e l ih =>
    rw [List.map_cons, List.nodup_cons] at hnd
    rw [List.flatMap_cons, List.nodup_append]
    refine ⟨List.nodup_replicate.mpr (hone e (List.mem_cons_self e l)),
      ih hnd.2 (fun b hb => hid b (List.mem_cons_of_mem e hb))
        (fun b hb => hone b (List.mem_cons_of_mem e hb)), ?_⟩
    intro x hx1 hx2
    rw [List.mem_replicate] at hx1
    rw [List.mem_flatMap] at hx2
    obtain ⟨b, hb, hxb⟩ := hx2
    rw [List.mem_replicate] at hxb
    apply hnd.1
    rw [List.mem_map]
    refine ⟨b, hb, ?_⟩
    rw [← hid b (List.mem_cons_of_mem e hb), ← hid e (List.mem_cons_self e l), ← hxb.2, ← hx1.2]

theorem entry_lookup {d : Store} {e : Sigma (fun _ : String => RankingTarget)}
    (he : e ∈ d.entries) : d.lookup e.1 = some e.2 := by
  obtain ⟨j, t⟩ := e
  have : t ∈ d.lookup j := AList.mem_lookup_iff.mpr he
  exact this

/-- When records sit under their own identifiers and none names `k` twice, the records
naming `k` are as many as the tags naming `k`. -/
theorem card_mentioners {d : Store} (hk : KeyedByID d) (k : String)
    (hone : ∀ j s, d.lookup j = some s → (eRefs s).count k ≤ 1) :
    (mentioners d k).card = mentionCount d k := by
  rw [mentionCount_eq_length]
  unfold mentioners
  apply List.toFinset_card_of_nodup
  rw [sources_eq]
  apply nodup_sources k d.entries d.keys_nodup
  · intro e he
    exact hk e.1 e.2 (entry_lookup he)
  · intro e he
    exact hone e.1 e.2 (entry_lookup he)

/-! ## Claims about the store after a pass -/

theorem rangeOrder_of_keys {d : Store} {visit : List String} (hnd : visit.Nodup)
    (h : ∀ k ∈ d.keys, k ∈ visit) : RangeOrder visit (resetMentions d) :=
  ⟨hnd, fun k hk => h k (AList.mem_keys.mp ((mem_resetMentions d k).mp hk))⟩

theorem passResult_mentionMap {d : Store} (hn : NoNil d) {k : String} {t : RankingTarget}
    (h : passResult d k = some t) :
    t.MentionMap = some (oldMap d k ∪ mentioners d k) := by
  unfold passResult bumped at h
  unfold oldMap
  cases hd : d.lookup k with
  | some t0 =>
    simp only [hd, Option.map_some', Option.some.injEq] at h
    subst h
    cases hm : t0.MentionMap with
    | none => exact absurd hm (hn k t0 hd)
    | some m0 => simp [resetTarget, hm]
  | none =>
    simp only [hd, Option.map_none'] at h
    split_ifs at h
    simp only [Option.some.injEq] at h
    subst h
    simp

/-- Claim C1, as the code has it.  The pass takes the tags `GetAll([]string{"e"})`
returns: every tag whose name begins with `e`.  After a pass over a reachable state, a
record under key `k` has `Mentions == len(MentionMap)` provided no record of the store
names `k` in two of those tags and the `MentionMap` held under `k` before the pass
contains only identifiers of records that name `k` in such a tag (as it does when it is
empty). -/
theorem C1_mentions_eq_len (ss : SliceSorter) (visit snap : List String) (st : State)
    (hr : Reachable st) (hv : RangeOrder visit (resetMentions st.data)) :
    ∃ st1, CalculateMentions ss visit snap st = some st1 ∧
      ∀ k t, st1.data.lookup k = some t →
        (∀ j s, st.data.lookup j = some s → (eRefs s).count k ≤ 1) →
        oldMap st.data k ⊆ mentioners st.data k →
        t.Mentions = mapLen t.MentionMap := by
  obtain ⟨hn, hk⟩ := reachable_inv hr
  obtain ⟨st1, h1, _, hl, _⟩ := CalculateMentions_spec ss snap hn hv
  refine ⟨st1, h1, ?_⟩
  intro k t ht hone hold
  rw [hl k] at ht
  rw [passResult_mentions ht, passResult_mentionMap hn ht]
  simp only [mapLen]
  rw [Finset.union_eq_right.mpr hold, card_mentioners hk k hone]

/-- Witness for C1: the three-event state `stE` under the loop order `E1, E2, E3`. -/
theorem C1_mentions_eq_len_witness :
    Reachable stE ∧ RangeOrder ["E1", "E2", "E3"] (resetMentions stE.data) ∧
    ∃ st1, CalculateMentions sortSliceSmall ["E1", "E2", "E3"] ["E1", "E2", "E3"] stE = some st1 ∧
      ∀ k t, st1.data.lookup k = some t →
        (∀ j s, stE.data.lookup j = some s → (eRefs s).count k ≤ 1) →
        oldMap stE.data k ⊆ mentioners stE.data k →
        t.Mentions = mapLen t.MentionMap :=
  have hr : Reachable stE :=
    Reachable.handle _ _ (Reachable.handle _ _ (Reachable.handle _ _ Reachable.init))
  have hv : RangeOrder ["E1", "E2", "E3"] (resetMentions stE.data) :=
    rangeOrder_of_keys (by decide) (by decide)
  ⟨hr, hv, C1_mentions_eq_len sortSliceSmall ["E1", "E2", "E3"] ["E1", "E2", "E3"] stE hr hv⟩

/-- Claim C1 as stated fails: after ingesting one event `A` that names `B` in two tags,
a pass leaves `B` with `Mentions == 2` and a `MentionMap` of one identifier.  So it does
when `A` names `B` in one tag `e` and one tag `expiration`: the pass counts every tag
whose name begins with `e`. -/
theorem C1_counterexample :
    (Reachable stDup ∧ SortSliceSpec sortSliceSmall ∧
      RangeOrder ["A"] (resetMentions stDup.data) ∧
      ∃ st1 t, CalculateMentions sortSliceSmall ["A"] ["A", "B"] stDup = some st1 ∧
        st1.data.lookup "B" = some t ∧ t.Mentions = 2 ∧ mapLen t.MentionMap = 1 ∧
        t.Mentions ≠ mapLen t.MentionMap) ∧
    (Reachable stExp ∧ RangeOrder ["A"] (resetMentions stExp.data) ∧
      (stExp.data.lookup "A").map (fun a => (exactERefs a).count "B") = some 1 ∧
      ∃ st1 t, CalculateMentions sortSliceSmall ["A"] ["A", "B"] stExp = some st1 ∧
        st1.data.lookup "B" = some t ∧ t.Mentions = 2 ∧ mapLen t.MentionMap = 1) := by
  constructor
  · refine ⟨Reachable.handle _ _ Reachable.init, sortSliceSmall_spec,
      rangeOrder_of_keys (by decide) (by decide), ?_⟩
    have hsome : (CalculateMentions sortSliceSmall ["A"] ["A", "B"] stDup).isSome = true := by
      decide
    obtain ⟨st1, h1⟩ := Option.isSome_iff_exists.mp hsome
    have hB : ((CalculateMentions sortSliceSmall ["A"] ["A", "B"] stDup).bind
        (fun s => s.data.lookup "B")).map (fun t => (t.Mentions, mapLen t.MentionMap))
        = some (2, 1) := by decide
    rw [h1] at hB
    simp only [Option.some_bind, Option.map_eq_some', Prod.mk.injEq] at hB
    obtain ⟨t, ht, h2, h3⟩ := hB
    exact ⟨st1, t, h1, ht, h2, h3, by rw [h2, h3]; decide⟩
  · refine ⟨Reachable.handle _ _ Reachable.init,
      rangeOrder_of_keys (by decide) (by decide), by decide, ?_⟩
    have hsome : (CalculateMentions sortSliceSmall ["A"] ["A", "B"] stExp).isSome = true := by
      decide
    obtain ⟨st1, h1⟩ := Option.isSome_iff_exists.mp hsome
    have hB : ((CalculateMentions sortSliceSmall ["A"] ["A", "B"] stExp).bind
        (fun s => s.data.lookup "B")).map (fun t => (t.Mentions, mapLen t.MentionMap))
        = some (2, 1) := by decide
    rw [h1] at hB
    simp only [Option.some_bind, Option.map_eq_some', Prod.mk.injEq] at hB
    obtain ⟨t, ht, h2, h3⟩ := hB
    exact ⟨st1, t, h1, ht, h2, h3⟩

/-- Claim C2, as the code has it.  After a pass, the `Mentions` of the record under key
`k` is the number of tags, over all records of the store and among the tags
`GetAll([]string{"e"})` returns (every tag whose name begins with `e`), whose value is
`k`: a record that names `k` in n such tags contributes n.  The count is the same in the
store before and after the pass, and the record is stored under its own `EventID`. -/
theorem C2_mentions_counts_tags (ss : SliceSorter) (visit snap : List String) (st : State)
    (hn : NoNil st.data) (hk : KeyedByID st.data)
    (hv : RangeOrder visit (resetMentions st.data)) :
    ∃ st1, CalculateMentions ss visit snap st = some st1 ∧
      ∀ k t, st1.data.lookup k = some t →
        t.EventID = k ∧
        t.Mentions = (st1.data.entries.map (fun e => (eRefs e.2).count t.EventID)).sum ∧
        t.Mentions = (st.data.entries.map (fun e => (eRefs e.2).count t.EventID)).sum := by
  obtain ⟨st1, h1, _, hl, _⟩ := CalculateMentions_spec ss snap hn hv
  refine ⟨st1, h1, ?_⟩
  intro k t ht
  rw [hl k] at ht
  have hid := passResult_eventID hk ht
  rw [hid, ← mentionCount_eq_sum, ← mentionCount_eq_sum, mentionCount_of_passResult hl k]
  exact ⟨rfl, passResult_mentions ht, passResult_mentions ht⟩

/-- Witness for C2: the state `stDup`, where `A` names `B` twice. -/
theorem C2_mentions_counts_tags_witness :
    NoNil stDup.data ∧ KeyedByID stDup.data ∧
    RangeOrder ["A"] (resetMentions stDup.data) ∧
    ∃ st1, CalculateMentions sortSliceSmall ["A"] ["A", "B"] stDup = some st1 ∧
      ∀ k t, st1.data.lookup k = some t →
        t.EventID = k ∧
        t.Mentions = (st1.data.entries.map (fun e => (eRefs e.2).count t.EventID)).sum ∧
        t.Mentions = (stDup.data.entries.map (fun e => (eRefs e.2).count t.EventID)).sum :=
  have hr : Reachable stDup := Reachable.handle _ _ Reachable.init
  have hv : RangeOrder ["A"] (resetMentions stDup.data) :=
    rangeOrder_of_keys (by decide) (by decide)
  ⟨(reachable_inv hr).1, (reachable_inv hr).2, hv,
    C2_mentions_counts_tags sortSliceSmall ["A"] ["A", "B"] stDup
      (reachable_inv hr).1 (reachable_inv hr).2 hv⟩

/-- Claim C2 as stated fails: after ingesting one event `A` that names `B` in two tags,
a pass leaves `B` with `Mentions == 2` although a single record of the store names `B`.
And after ingesting a note whose only tag is `expiration`, a pass leaves a record under
the value of that tag, with `Mentions == 1`, that no tag `e` of the store names. -/
theorem C2_counterexample :
    (∃ st1 t, CalculateMentions sortSliceSmall ["A"] ["A", "B"] stDup = some st1 ∧
      st1.data.lookup "B" = some t ∧ t.EventID = "B" ∧ t.Mentions = 2 ∧
      referrers st1.data "B" = 1) ∧
    (∃ st1 t, CalculateMentions sortSliceSmall ["A"] ["A", "1700000000"] stNote = some st1 ∧
      st1.data.lookup "1700000000" = some t ∧ t.EventID = "1700000000" ∧ t.Mentions = 1 ∧
      (st1.data.entries.map (fun e => (exactERefs e.2).count "1700000000")).sum = 0) := by
  constructor
  · have hsome : (CalculateMentions sortSliceSmall ["A"] ["A", "B"] stDup).isSome = true := by
      decide
    obtain ⟨st1, h1⟩ := Option.isSome_iff_exists.mp hsome
    have hB : ((CalculateMentions sortSliceSmall ["A"] ["A", "B"] stDup).bind
        (fun s => (s.data.lookup "B").map
          (fun t => (t.EventID, t.Mentions, referrers s.data "B"))))
        = some ("B", 2, 1) := by decide
    rw [h1] at hB
    simp only [Option.some_bind, Option.map_eq_some', Prod.mk.injEq] at hB
    obtain ⟨t, ht, h2, h3, h4⟩ := hB
    exact ⟨st1, t, h1, ht, h2, h3, h4⟩
  · have hsome : (CalculateMentions sortSliceSmall ["A"] ["A", "1700000000"]
        stNote).isSome = true := by decide
    obtain ⟨st1, h1⟩ := Option.isSome_iff_exists.mp hsome
    have hB : ((CalculateMentions sortSliceSmall ["A"] ["A", "1700000000"] stNote).bind
        (fun s => (s.data.lookup "1700000000").map
          (fun t => (t.EventID, t.Mentions,
            (s.data.entries.map (fun e => (exactERefs e.2).count "1700000000")).sum))))
        = some ("1700000000", 1, 0) := by decide
    rw [h1] at hB
    simp only [Option.some_bind, Option.map_eq_some', Prod.mk.injEq] at hB
    obtain ⟨t, ht, h2, h3, h4⟩ := hB
    exact ⟨st1, t, h1, ht, h2, h3, h4⟩

/-- Claim C3, as the code has it.  After a pass, the `MentionMap` of the record under key
`k` is the `MentionMap` the store held under `k` before the pass (nothing for a record
the pass creates) together with the `EventID`s of the records of the store that carry,
among the tags `GetAll([]string{"e"})` returns (every tag whose name begins with `e`), a
tag whose value is `k`: the reset step leaves `MentionMap` as it is. -/
theorem C3_mentionMap_accumulates (ss : SliceSorter) (visit snap : List String) (st : State)
    (hn : NoNil st.data) (hv : RangeOrder visit (resetMentions st.data)) :
    ∃ st1, CalculateMentions ss visit snap st = some st1 ∧
      ∀ k t, st1.data.lookup k = some t →
        ∃ m, t.MentionMap = some m ∧
          ∀ x, x ∈ m ↔ (x ∈ oldMap st.data k ∨
            ∃ e ∈ st1.data.entries, e.2.EventID = x ∧ k ∈ eRefs e.2) := by
  obtain ⟨st1, h1, _, hl, _⟩ := CalculateMentions_spec ss snap hn hv
  refine ⟨st1, h1, ?_⟩
  intro k t ht
  rw [hl k] at ht
  refine ⟨_, passResult_mentionMap hn ht, ?_⟩
  intro x
  rw [Finset.mem_union, ← mem_mentioners, mentioners_of_passResult hl k]

/-- Witness for C3: the state `stAB`, where `A` names `B`. -/
theorem C3_mentionMap_accumulates_witness :
    NoNil stAB.data ∧ RangeOrder ["A"] (resetMentions stAB.data) ∧
    ∃ st1, CalculateMentions sortSliceSmall ["A"] ["A", "B"] stAB = some st1 ∧
      ∀ k t, st1.data.lookup k = some t →
        ∃ m, t.MentionMap = some m ∧
          ∀ x, x ∈ m ↔ (x ∈ oldMap stAB.data k ∨
            ∃ e ∈ st1.data.entries, e.2.EventID = x ∧ k ∈ eRefs e.2) :=
  have hr : Reachable stAB := Reachable.handle _ _ Reachable.init
  have hv : RangeOrder ["A"] (resetMentions stAB.data) :=
    rangeOrder_of_keys (by decide) (by decide)
  ⟨(reachable_inv hr).1, hv,
    C3_mentionMap_accumulates sortSliceSmall ["A"] ["A", "B"] stAB (reachable_inv hr).1 hv⟩

/-- Ingest `A` naming `B`, run a pass, ingest an event with identifier `A` and no tags,
run a second pass.  In the state reached, the record `B` still has `A` in its
`MentionMap`, and no record of the store names `B`. -/
theorem stale_after_reingest :
    ∃ s t, stStale = some s ∧ Reachable s ∧ s.data.lookup "B" = some t ∧
      t.MentionMap.getD ∅ = {"A"} ∧ t.Mentions = 0 ∧ referrers s.data "B" = 0 := by
  have hs1 : (CalculateMentions sortSliceSmall ["A"] ["A", "B"] stAB).isSome = true := by
    decide
  obtain ⟨st1, h1⟩ := Option.isSome_iff_exists.mp hs1
  have hf1 : (CalculateMentions sortSliceSmall ["A"] ["A", "B"] stAB).map (fun s1 =>
      (decide (["A", "B"].Perm s1.data.keys),
        decide (∀ k ∈ (HandleEvent (mkEvent "A" []) s1).1.data.keys, k ∈ ["A", "B"])))
      = some (true, true) := by decide
  rw [h1] at hf1
  simp only [Option.map_some', Option.some.injEq, Prod.mk.injEq, decide_eq_true_eq] at hf1
  have r1 : Reachable st1 :=
    Reachable.pass sortSliceSmall ["A"] ["A", "B"] stAB st1
      (Reachable.handle _ _ Reachable.init) sortSliceSmall_spec
      (rangeOrder_of_keys (by decide) (by decide)) h1 hf1.1
  have hsome : stStale.isSome = true := by decide
  obtain ⟨s, hs⟩ := Option.isSome_iff_exists.mp hsome
  have h2 : CalculateMentions sortSliceSmall ["A", "B"] ["A", "B"]
      (HandleEvent (mkEvent "A" []) st1).1 = some s := by
    have := hs
    unfold stStale at this
    rw [h1, Option.some_bind] at this
    exact this
  have hf2 : stStale.map (fun s2 => decide (["A", "B"].Perm s2.data.keys)) = some true := by
    decide
  rw [hs] at hf2
  simp only [Option.map_some', Option.some.injEq, decide_eq_true_eq] at hf2
  have r2 : Reachable s :=
    Reachable.pass sortSliceSmall ["A", "B"] ["A", "B"] _ s
      (Reachable.handle (mkEvent "A" []) st1 r1) sortSliceSmall_spec
      (rangeOrder_of_keys (by decide) hf1.2) h2 hf2
  have hB : (stStale.bind (fun s => (s.data.lookup "B").map
        (fun t => (mapLen t.MentionMap, t.Mentions, referrers s.data "B"))))
      = some (1, 0, 0) := by decide
  have hA : (stStale.bind (fun s => (s.data.lookup "B").map
        (fun t => decide ("A" ∈ t.MentionMap.getD ∅)))) = some true := by decide
  rw [hs] at hB hA
  simp only [Option.some_bind, Option.map_eq_some', Prod.mk.injEq] at hB hA
  obtain ⟨t, ht, h3, h4, h5⟩ := hB
  obtain ⟨t1, ht1, h6⟩ := hA
  rw [ht] at ht1
  simp only [Option.some.injEq] at ht1
  subst ht1
  refine ⟨s, t, hs, r2, ht, ?_, h4, h5⟩
  simp only [decide_eq_true_eq] at h6
  cases hm : t.MentionMap with
  | none => rw [hm] at h6; simp at h6
  | some m =>
    rw [hm] at h6 h3
    simp only [Option.getD_some, mapLen] at h6 h3 ⊢
    obtain ⟨a, ha⟩ := Finset.card_eq_one.mp h3
    rw [ha] at h6 ⊢
    rw [Finset.mem_singleton] at h6
    rw [h6]

/-- After a pass over the note whose only tag is `expiration`, the record under the value
of that tag has the note in its `MentionMap`, and no tag `e` of the store names it. -/
theorem note_expiration_mentionMap :
    ∃ st1 t, CalculateMentions sortSliceSmall ["A"] ["A", "1700000000"] stNote = some st1 ∧
      st1.data.lookup "1700000000" = some t ∧ mapLen t.MentionMap = 1 ∧
      "A" ∈ t.MentionMap.getD ∅ ∧
      (st1.data.entries.map (fun e => (exactERefs e.2).count "1700000000")).sum = 0 := by
  have hsome : (CalculateMentions sortSliceSmall ["A"] ["A", "1700000000"]
      stNote).isSome = true := by decide
  obtain ⟨st1, h1⟩ := Option.isSome_iff_exists.mp hsome
  have hB : ((CalculateMentions sortSliceSmall ["A"] ["A", "1700000000"] stNote).bind
      (fun s => (s.data.lookup "1700000000").map
        (fun t => (mapLen t.MentionMap, decide ("A" ∈ t.MentionMap.getD ∅),
          (s.data.entries.map (fun e => (exactERefs e.2).count "1700000000")).sum))))
      = some (1, true, 0) := by decide
  rw [h1] at hB
  simp only [Option.some_bind, Option.map_eq_some', Prod.mk.injEq, decide_eq_true_eq] at hB
  obtain ⟨t, ht, h2, h3, h4⟩ := hB
  exact ⟨st1, t, h1, ht, h2, h3, h4⟩

/-- Claim C3 as stated fails: ingest `A` naming `B`, run a pass, ingest an event with
identifier `A` and no tags, run a second pass; in the state reached the record `B` still
has `A` in its `MentionMap`, and no record of the store names `B`.  And a note whose only
tag is `expiration` is put in the `MentionMap` of the record under that tag's value,
which no tag `e` names. -/
theorem C3_counterexample :
    (∃ s t, stStale = some s ∧ Reachable s ∧ s.data.lookup "B" = some t ∧
      t.MentionMap.getD ∅ = {"A"} ∧ t.Mentions = 0 ∧ referrers s.data "B" = 0) ∧
    (∃ st1 t, CalculateMentions sortSliceSmall ["A"] ["A", "1700000000"] stNote = some st1 ∧
      st1.data.lookup "1700000000" = some t ∧ mapLen t.MentionMap = 1 ∧
      "A" ∈ t.MentionMap.getD ∅ ∧
      (st1.data.entries.map (fun e => (exactERefs e.2).count "1700000000")).sum = 0) :=
  ⟨stale_after_reingest, note_expiration_mentionMap⟩

/-- Claim C4.  A pass over a store without nil maps, under any legal loop order, ends
and leaves every record of the store, existing or created by the pass, with `Score`
400, whatever the scores were before. -/
theorem C4_score_is_kvalue (ss : SliceSorter) (visit snap : List String) (st : State)
    (hn : NoNil st.data) (hv : RangeOrder visit (resetMentions st.data)) :
    ∃ st1, CalculateMentions ss visit snap st = some st1 ∧
      ∀ k t, st1.data.lookup k = some t → t.Score = 400 := by
  obtain ⟨st1, h1, _, hl, _⟩ := CalculateMentions_spec ss snap hn hv
  refine ⟨st1, h1, ?_⟩
  intro k t ht
  rw [hl k] at ht
  exact passResult_score ht

/-- Witness for C4: the state `stAB`, whose record `A` has `Score` 0 before the pass and
whose pass creates the placeholder `B`. -/
theorem C4_score_is_kvalue_witness :
    NoNil stAB.data ∧ RangeOrder ["A"] (resetMentions stAB.data) ∧
    ∃ st1, CalculateMentions sortSliceSmall ["A"] ["B", "A"] stAB = some st1 ∧
      ∀ k t, st1.data.lookup k = some t → t.Score = 400 :=
  have hr : Reachable stAB := Reachable.handle _ _ Reachable.init
  have hv : RangeOrder ["A"] (resetMentions stAB.data) :=
    rangeOrder_of_keys (by decide) (by decide)
  ⟨(reachable_inv hr).1, hv,
    C4_score_is_kvalue sortSliceSmall ["A"] ["B", "A"] stAB (reachable_inv hr).1 hv⟩

theorem entry_eq_of_key {d : Store} {e : Sigma (fun _ : String => RankingTarget)}
    (he : e ∈ d.entries) {a : String} {A : RankingTarget} (hA : d.lookup a = some A)
    (hkey : e.1 = a) : e = ⟨a, A⟩ := by
  obtain ⟨j, t⟩ := e
  simp only at hkey
  subst hkey
  have := entry_lookup he
  simp only at this
  rw [hA] at this
  simp only [Option.some.injEq] at this
  rw [this]

/-- When a single record names `B`, and names it once, the sources of the edges into `B`
are that record alone. -/
theorem sources_single {d : Store} {a B : String} {A : RankingTarget}
    (hA : d.lookup a = some A) (hAB : (eRefs A).count B = 1)
    (honly : ∀ j s, d.lookup j = some s → j ≠ a → B ∉ eRefs s) :
    (((allPairs d).filter (fun p => decide (p.1 = B))).map Prod.snd) = [A.EventID] := by
  rw [sources_eq]
  have hmem : (⟨a, A⟩ : Sigma (fun _ : String => RankingTarget)) ∈ d.entries :=
    AList.mem_lookup_iff.mp hA
  have hperm := List.perm_cons_erase hmem
  have hnd : d.entries.Nodup := d.nodupKeys.nodup
  have hrest : (d.entries.erase ⟨a, A⟩).flatMap
      (fun e => List.replicate ((eRefs e.2).count B) e.2.EventID) = [] := by
    apply flatMap_nil_of_forall
    intro e he
    rw [hnd.mem_erase_iff] at he
    have hne : e.1 ≠ a := fun hkey => he.1 (entry_eq_of_key he.2 hA hkey)
    have := honly e.1 e.2 (entry_lookup he.2) hne
    rw [List.count_eq_zero_of_not_mem this]
    rfl
  have h2 := hperm.flatMap_right (fun e => List.replicate ((eRefs e.2).count B) e.2.EventID)
  rw [List.flatMap_cons, hrest, List.append_nil, hAB] at h2
  exact List.perm_singleton.mp h2

/-- Claim C5, as the code has it.  The pass takes the tags `GetAll([]string{"e"})`
returns: every tag whose name begins with `e`.  If the store holds a record `A` with
such a tag naming `B`, holds nothing under `B`, and `A` is the only record naming `B` in
such a tag and names it in one, then the pass ends and the store holds under `B` a record
with `EventID == B`, `Score == 400`, `Mentions == 1` and `MentionMap == {A.EventID}`. -/
theorem C5_placeholder_created (ss : SliceSorter) (visit snap : List String) (st : State)
    (a B : String) (A : RankingTarget)
    (hn : NoNil st.data) (hv : RangeOrder visit (resetMentions st.data))
    (hA : st.data.lookup a = some A) (hAB : (eRefs A).count B = 1)
    (hB : st.data.lookup B = none)
    (honly : ∀ j s, st.data.lookup j = some s → j ≠ a → B ∉ eRefs s) :
    ∃ st1 t, CalculateMentions ss visit snap st = some st1 ∧
      st1.data.lookup B = some t ∧ t.EventID = B ∧ t.Score = 400 ∧ t.Mentions = 1 ∧
      t.MentionMap = some {A.EventID} ∧ t.Event = Nostr.Event.zero := by
  obtain ⟨st1, h1, _, hl, _⟩ := CalculateMentions_spec ss snap hn hv
  have hsrc := sources_single hA hAB honly
  have hcount : mentionCount st.data B = 1 := by
    rw [mentionCount_eq_length, hsrc]
    rfl
  have hset : mentioners st.data B = {A.EventID} := by
    unfold mentioners
    rw [hsrc]
    rfl
  have hres : passResult st.data B = some
      { EventID := B, Event := Nostr.Event.zero, Score := 400, Mentions := 1,
        MentionMap := some {A.EventID} } := by
    unfold passResult bumped
    rw [hB, hcount, hset]
    rfl
  exact ⟨st1, _, h1, (hl B).trans hres, rfl, rfl, rfl, rfl, rfl⟩

/-- Witness for C5: the state `stAB`, where `A` names `B` once and `B` is not stored. -/
theorem C5_placeholder_created_witness :
    NoNil stAB.data ∧ RangeOrder ["A"] (resetMentions stAB.data) ∧
    stAB.data.lookup "A" = some (⟨"A", (mkEvent "A" [["e", "B"]]).Nostr, 0, 0, some ∅⟩) ∧
    (eRefs ⟨"A", (mkEvent "A" [["e", "B"]]).Nostr, 0, 0, some ∅⟩).count "B" = 1 ∧
    stAB.data.lookup "B" = none ∧
    (∀ j s, stAB.data.lookup j = some s → j ≠ "A" → "B" ∉ eRefs s) ∧
    ∃ st1 t, CalculateMentions sortSliceSmall ["A"] ["A", "B"] stAB = some st1 ∧
      st1.data.lookup "B" = some t ∧ t.EventID = "B" ∧ t.Score = 400 ∧ t.Mentions = 1 ∧
      t.MentionMap = some {"A"} ∧ t.Event = Nostr.Event.zero :=
  have hn : NoNil stAB.data := (reachable_inv (Reachable.handle _ _ Reachable.init)).1
  have hv : RangeOrder ["A"] (resetMentions stAB.data) :=
    rangeOrder_of_keys (by decide) (by decide)
  have honly : ∀ j s, stAB.data.lookup j = some s → j ≠ "A" → "B" ∉ eRefs s := by
    intro j s hs hj
    have hmem : j ∈ stAB.data.keys :=
      AList.mem_keys.mp (AList.lookup_isSome.mp (by rw [hs]; rfl))
    have hkeys : stAB.data.keys = ["A"] := by decide
    rw [hkeys, List.mem_singleton] at hmem
    exact absurd hmem hj
  ⟨hn, hv, by decide, by decide, by decide, honly,
    C5_placeholder_created sortSliceSmall ["A"] ["A", "B"] stAB "A" "B"
      ⟨"A", (mkEvent "A" [["e", "B"]]).Nostr, 0, 0, some ∅⟩
      hn hv (by decide) (by decide) (by decide) honly⟩

/-- Claim C5 as stated fails: the store holds one record, `A`, with one tag `e` naming
`B` and one tag `expiration` with the same value, and nothing under `B`; the pass stores
`B` with `Mentions == 2`. -/
theorem C5_counterexample :
    stExp.data.lookup "A"
      = some ⟨"A", (mkEvent "A" [["e", "B"], ["expiration", "B"]]).Nostr, 0, 0, some ∅⟩ ∧
    (exactERefs ⟨"A", (mkEvent "A" [["e", "B"], ["expiration", "B"]]).Nostr, 0, 0,
      some ∅⟩).count "B" = 1 ∧
    stExp.data.lookup "B" = none ∧ stExp.data.keys = ["A"] ∧
    ∃ st1 t, CalculateMentions sortSliceSmall ["A"] ["A", "B"] stExp = some st1 ∧
      st1.data.lookup "B" = some t ∧ t.Mentions = 2 ∧ t.Mentions ≠ 1 := by
  refine ⟨by decide, by decide, by decide, by decide, ?_⟩
  have hsome : (CalculateMentions sortSliceSmall ["A"] ["A", "B"] stExp).isSome = true := by
    decide
  obtain ⟨st1, h1⟩ := Option.isSome_iff_exists.mp hsome
  have hB : ((CalculateMentions sortSliceSmall ["A"] ["A", "B"] stExp).bind
      (fun s => s.data.lookup "B")).map (fun t => t.Mentions) = some 2 := by decide
  rw [h1] at hB
  simp only [Option.some_bind, Option.map_eq_some'] at hB
  obtain ⟨t, ht, h2⟩ := hB
  exact ⟨st1, t, h1, ht, h2, by rw [h2]; decide⟩

theorem two_stage_order {ss : SliceSorter} (hs : SortSliceSpec ss)
    (xs : List RankingTarget) :
    (orderByRankings (orderByMentions ss xs)).Perm xs ∧
      (orderByRankings (orderByMentions ss xs)).Pairwise
        (fun x y => x.Score > y.Score ∨ (x.Score = y.Score ∧ x.Mentions ≥ y.Mentions)) := by
  obtain ⟨hp, hm⟩ := orderByMentions_spec hs xs
  exact ⟨(sortSliceStable_perm _ _).trans hp, orderByRankings_lex _ hm⟩

/-- Claim C6.  For every list of records and every `sort.Slice` meeting its contract,
`orderByRankings (orderByMentions xs)` is a rearrangement of `xs` in which, for any two
positions i before j, `Score[i] > Score[j]`, or `Score[i] == Score[j]` and
`Mentions[i] >= Mentions[j]`. -/
theorem C6_two_stage_order (ss : SliceSorter) (hs : SortSliceSpec ss)
    (xs : List RankingTarget) :
    (orderByRankings (orderByMentions ss xs)).Perm xs ∧
      (orderByRankings (orderByMentions ss xs)).Pairwise
        (fun x y => x.Score > y.Score ∨ (x.Score = y.Score ∧ x.Mentions ≥ y.Mentions)) :=
  two_stage_order hs xs

/-- Witness for C6: four records under the insertion sort of short slices. -/
theorem C6_two_stage_order_witness :
    SortSliceSpec sortSliceSmall ∧
    (orderByRankings (orderByMentions sortSliceSmall exRecords)).Perm exRecords ∧
      (orderByRankings (orderByMentions sortSliceSmall exRecords)).Pairwise
        (fun x y => x.Score > y.Score ∨ (x.Score = y.Score ∧ x.Mentions ≥ y.Mentions)) :=
  ⟨sortSliceSmall_spec, C6_two_stage_order sortSliceSmall sortSliceSmall_spec exRecords⟩

/-! ## The published order -/

theorem filterMap_lookup_keys (d : Store)
    (l : List (Sigma (fun _ : String => RankingTarget)))
    (h : ∀ e ∈ l, d.lookup e.1 = some e.2) :
    (l.map Sigma.fst).filterMap (fun k => d.lookup k) = l.map (fun e => e.2) := by
  induction l with
  | nil => rfl
  | cons e l ih =>
    rw [List.map_cons, List.filterMap_cons, h e (List.mem_cons_self e l)]
    simp only [List.map_cons]
    rw [ih (fun b hb => h b (List.mem_cons_of_mem e hb))]

theorem collect_perm {d : Store} {snap : List String} (h : SnapshotOrder snap d) :
    (collect snap d).Perm (records d) := by
  have h1 : (collect snap d).Perm (d.keys.filterMap (fun k => d.lookup k)) :=
    List.Perm.filterMap _ h
  have h2 : d.keys.filterMap (fun k => d.lookup k) = records d :=
    filterMap_lookup_keys d d.entries (fun e he => entry_lookup he)
  rw [h2] at h1
  exact h1

theorem mem_records {d : Store} {t : RankingTarget} :
    t ∈ records d ↔ ∃ k, d.lookup k = some t := by
  unfold records
  rw [List.mem_map]
  constructor
  · rintro ⟨e, he, rfl⟩
    exact ⟨e.1, entry_lookup he⟩
  · rintro ⟨k, hk⟩
    exact ⟨⟨k, t⟩, AList.mem_lookup_iff.mp hk, rfl⟩

theorem length_records (d : Store) : (records d).length = d.keys.length := by
  unfold records AList.keys List.keys
  rw [List.length_map, List.length_map]

/-- The published order of a pass: the records of the store, each once, by `Mentions`
non-increasing. -/
theorem currentOrder_spec {ss : SliceSorter} (hs : SortSliceSpec ss) {snap : List String}
    {d : Store} (h400 : ∀ k t, d.lookup k = some t → t.Score = 400)
    (hsnap : SnapshotOrder snap d) :
    (orderByRankings (orderByMentions ss (collect snap d))).Perm (records d) ∧
      (orderByRankings (orderByMentions ss (collect snap d))).Pairwise
        (fun x y => x.Mentions ≥ y.Mentions) := by
  obtain ⟨hp, hl⟩ := two_stage_order hs (collect snap d)
  have hperm := hp.trans (collect_perm hsnap)
  refine ⟨hperm, hl.imp_of_mem ?_⟩
  intro x y hx hy hxy
  obtain ⟨kx, hkx⟩ := mem_records.mp (hperm.mem_iff.mp hx)
  obtain ⟨ky, hky⟩ := mem_records.mp (hperm.mem_iff.mp hy)
  have h1 := h400 kx x hkx
  have h2 := h400 ky y hky
  omega

theorem head_of_strict_max {co : List RankingTarget} {t1 : RankingTarget}
    (hp : co.Pairwise (fun x y => x.Mentions ≥ y.Mentions)) (hmem : t1 ∈ co)
    (hmax : ∀ x ∈ co, x.Mentions ≥ t1.Mentions → x = t1) : ∃ rest, co = t1 :: rest := by
  cases co with
  | nil => simp at hmem
  | cons x rest =>
    rw [List.pairwise_cons] at hp
    rcases List.mem_cons.mp hmem with h | h
    · exact ⟨rest, by rw [h]⟩
    · have := hmax x (List.mem_cons_self x rest) (hp.1 t1 h)
      exact ⟨rest, by rw [this]⟩

theorem allPairs_stE : allPairs stE.data = [("E1", "E3"), ("E1", "E2")] := by decide

theorem mentionCount_stE {k : String} (h : 2 ≤ mentionCount stE.data k) : k = "E1" := by
  by_contra hk
  have hk2 : ¬ "E1" = k := fun e => hk e.symm
  unfold mentionCount at h
  rw [allPairs_stE] at h
  simp [List.countP_cons, hk2] at h

/-- The scenario of three events: after a pass over the store of `stE`, `E1` has two
mentions, from `E2` and `E3`, which have none, and `E1` heads every list of the records
that is ordered by `Mentions`. -/
theorem scenario_stE {d1 : Store} (hl : ∀ k, d1.lookup k = passResult stE.data k)
    {co : List RankingTarget} (hperm : co.Perm (records d1))
    (hpw : co.Pairwise (fun x y => x.Mentions ≥ y.Mentions)) :
    ∃ t1 t2 t3 rest, d1.lookup "E1" = some t1 ∧ d1.lookup "E2" = some t2 ∧
      d1.lookup "E3" = some t3 ∧ t1.Mentions = 2 ∧ t1.MentionMap = some {"E2", "E3"} ∧
      t2.Mentions = 0 ∧ t3.Mentions = 0 ∧ co = t1 :: rest := by
  have hn : NoNil stE.data :=
    (reachable_inv (Reachable.handle _ _ (Reachable.handle _ _
      (Reachable.handle _ _ Reachable.init)))).1
  obtain ⟨t1, h1⟩ := Option.isSome_iff_exists.mp
    (passResult_isSome_of_mem (d := stE.data) (k := "E1") (by decide))
  obtain ⟨t2, h2⟩ := Option.isSome_iff_exists.mp
    (passResult_isSome_of_mem (d := stE.data) (k := "E2") (by decide))
  obtain ⟨t3, h3⟩ := Option.isSome_iff_exists.mp
    (passResult_isSome_of_mem (d := stE.data) (k := "E3") (by decide))
  have hm1 : t1.Mentions = 2 := by
    rw [passResult_mentions h1]
    have : mentionCount stE.data "E1" = 2 := by decide
    rw [this]; rfl
  have hm2 : t2.Mentions = 0 := by
    rw [passResult_mentions h2]
    have : mentionCount stE.data "E2" = 0 := by decide
    rw [this]; rfl
  have hm3 : t3.Mentions = 0 := by
    rw [passResult_mentions h3]
    have : mentionCount stE.data "E3" = 0 := by decide
    rw [this]; rfl
  have hmap : t1.MentionMap = some {"E2", "E3"} := by
    rw [passResult_mentionMap hn h1]
    have : oldMap stE.data "E1" ∪ mentioners stE.data "E1" = {"E2", "E3"} := by decide
    rw [this]
  have hmem : t1 ∈ co := hperm.mem_iff.mpr (mem_records.mpr ⟨"E1", (hl "E1").trans h1⟩)
  have hmax : ∀ x ∈ co, x.Mentions ≥ t1.Mentions → x = t1 := by
    intro x hx hge
    obtain ⟨k, hk⟩ := mem_records.mp (hperm.mem_iff.mp hx)
    rw [hl k] at hk
    have hc := passResult_mentions hk
    rw [hm1, hc] at hge
    have hk1 : k = "E1" := mentionCount_stE (by exact_mod_cast hge)
    subst hk1
    rw [h1] at hk
    exact (Option.some.inj hk).symm
  obtain ⟨rest, hrest⟩ := head_of_strict_max hpw hmem hmax
  exact ⟨t1, t2, t3, rest, (hl "E1").trans h1, (hl "E2").trans h2, (hl "E3").trans h3,
    hm1, hmap, hm2, hm3, hrest⟩

/-- Claim C7.  After a pass (over a store without nil maps, under legal loop orders and a
`sort.Slice` meeting its contract) `CurrentOrder()` holds the records of the store, each
once and as the store holds them, as many as `Count()`, ordered by `Mentions`
non-increasing.  For the store of `E1` (no tags), `E2` and `E3` (each naming `E1`):
`E1.Mentions == 2`, `E1.MentionMap == {E2, E3}`, `E2.Mentions == 0`, `E3.Mentions == 0`,
and `E1` is first in the published order. -/
theorem C7_published_order (ss : SliceSorter) (visit snap : List String) (st : State)
    (hs : SortSliceSpec ss) (hn : NoNil st.data)
    (hv : RangeOrder visit (resetMentions st.data)) :
    ∃ st1, CalculateMentions ss visit snap st = some st1 ∧
      (SnapshotOrder snap st1.data →
        (CurrentOrder st1).Perm (records st1.data) ∧
        (CurrentOrder st1).length = Count st1 ∧
        (CurrentOrder st1).Pairwise (fun x y => x.Mentions ≥ y.Mentions) ∧
        (st.data = stE.data →
          ∃ t1 t2 t3 rest, st1.data.lookup "E1" = some t1 ∧ st1.data.lookup "E2" = some t2 ∧
            st1.data.lookup "E3" = some t3 ∧ t1.Mentions = 2 ∧
            t1.MentionMap = some {"E2", "E3"} ∧ t2.Mentions = 0 ∧ t3.Mentions = 0 ∧
            CurrentOrder st1 = t1 :: rest)) := by
  obtain ⟨st1, h1, _, hl, hco⟩ := CalculateMentions_spec ss snap hn hv
  refine ⟨st1, h1, ?_⟩
  intro hsnap
  have h400 : ∀ k t, st1.data.lookup k = some t → t.Score = 400 :=
    fun k t ht => passResult_score (by rw [← hl k]; exact ht)
  obtain ⟨hperm, hpw⟩ := currentOrder_spec hs h400 hsnap
  unfold CurrentOrder Count
  rw [hco]
  refine ⟨hperm, ?_, hpw, ?_⟩
  · rw [hperm.length_eq, length_records]
  · intro heq
    rw [heq] at hl
    exact scenario_stE hl hperm hpw

/-- Witness for C7: the three-event state `stE`, visited as `E2, E1, E3` and collected as
`E3, E2, E1`. -/
theorem C7_published_order_witness :
    SortSliceSpec sortSliceSmall ∧ NoNil stE.data ∧
    RangeOrder ["E2", "E1", "E3"] (resetMentions stE.data) ∧
    ∃ st1, CalculateMentions sortSliceSmall ["E2", "E1", "E3"] ["E3", "E2", "E1"] stE
        = some st1 ∧
      SnapshotOrder ["E3", "E2", "E1"] st1.data ∧
      (CurrentOrder st1).Perm (records st1.data) ∧
      (CurrentOrder st1).length = Count st1 ∧
      (CurrentOrder st1).Pairwise (fun x y => x.Mentions ≥ y.Mentions) ∧
      ∃ t1 t2 t3 rest, st1.data.lookup "E1" = some t1 ∧ st1.data.lookup "E2" = some t2 ∧
        st1.data.lookup "E3" = some t3 ∧ t1.Mentions = 2 ∧
        t1.MentionMap = some {"E2", "E3"} ∧ t2.Mentions = 0 ∧ t3.Mentions = 0 ∧
        CurrentOrder st1 = t1 :: rest := by
  have hn : NoNil stE.data :=
    (reachable_inv (Reachable.handle _ _ (Reachable.handle _ _
      (Reachable.handle _ _ Reachable.init)))).1
  have hv : RangeOrder ["E2", "E1", "E3"] (resetMentions stE.data) :=
    rangeOrder_of_keys (by decide) (by decide)
  obtain ⟨st1, h1, h⟩ := C7_published_order sortSliceSmall ["E2", "E1", "E3"]
    ["E3", "E2", "E1"] stE sortSliceSmall_spec hn hv
  have hk : (CalculateMentions sortSliceSmall ["E2", "E1", "E3"] ["E3", "E2", "E1"] stE).map
      (fun s => decide (["E3", "E2", "E1"].Perm s.data.keys)) = some true := by decide
  rw [h1] at hk
  simp only [Option.map_some', Option.some.injEq, decide_eq_true_eq] at hk
  obtain ⟨a, b, c, e⟩ := h hk
  exact ⟨sortSliceSmall_spec, hn, hv, st1, h1, hk, a, b, c, e rfl⟩

/-! ## Two passes in a row -/

theorem bumped_passResult (d : Store) (k : String) :
    bumped k ((passResult d k).map resetTarget) (mentionCount d k) (mentioners d k)
      = passResult d k := by
  unfold passResult bumped
  cases hd : d.lookup k with
  | some t0 =>
    simp only [Option.map_some', resetTarget, zero_add, Option.some.injEq]
    cases hm : t0.MentionMap with
    | none => simp
    | some m0 => simp [Finset.union_assoc]
  | none =>
    simp only [Option.map_none']
    split_ifs with h0
    · rfl
    · simp [resetTarget, kvalue]

/-- A pass over the outcome of a pass changes no record. -/
theorem passResult_idem {d d1 : Store} (hl : ∀ k, d1.lookup k = passResult d k) (k : String) :
    passResult d1 k = d1.lookup k := by
  have h1 : passResult d1 k
      = bumped k ((d1.lookup k).map resetTarget) (mentionCount d1 k) (mentioners d1 k) := rfl
  rw [h1, mentionCount_of_passResult hl k, mentioners_of_passResult hl k, hl k]
  exact bumped_passResult d k

theorem entries_perm_of_lookup {d1 d2 : Store} (h : ∀ k, d2.lookup k = d1.lookup k) :
    d2.entries.Perm d1.entries :=
  List.lookup_ext d2.nodupKeys d1.nodupKeys (fun x y => by
    have := h x
    unfold AList.lookup at this
    rw [this])

theorem records_perm_of_lookup {d1 d2 : Store} (h : ∀ k, d2.lookup k = d1.lookup k) :
    (records d2).Perm (records d1) :=
  (entries_perm_of_lookup h).map _

/-- Claim C8.  Running `CalculateMentions` twice in a row leaves the store of the first
run: the second run ends, and under every key it holds what the first run left there, so
the records, and the `Mentions`, `MentionMap` and `Score` of each, are the same,
placeholders included. -/
theorem C8_pass_idempotent (ss1 : SliceSorter) (visit1 snap1 : List String) (st : State)
    (hn : NoNil st.data) (hv : RangeOrder visit1 (resetMentions st.data)) :
    ∃ st1, CalculateMentions ss1 visit1 snap1 st = some st1 ∧
      ∀ (ss2 : SliceSorter) (visit2 snap2 : List String),
        RangeOrder visit2 (resetMentions st1.data) →
        ∃ st2, CalculateMentions ss2 visit2 snap2 st1 = some st2 ∧
          (∀ k, st2.data.lookup k = st1.data.lookup k) ∧
          (∀ k, k ∈ st2.data ↔ k ∈ st1.data) ∧ Count st2 = Count st1 := by
  obtain ⟨st1, h1, hn1, hl1, _⟩ := CalculateMentions_spec ss1 snap1 hn hv
  refine ⟨st1, h1, ?_⟩
  intro ss2 visit2 snap2 hv2
  obtain ⟨st2, h2, _, hl2, _⟩ := CalculateMentions_spec ss2 snap2 hn1 hv2
  have heq : ∀ k, st2.data.lookup k = st1.data.lookup k :=
    fun k => (hl2 k).trans (passResult_idem hl1 k)
  refine ⟨st2, h2, heq, ?_, ?_⟩
  · intro k
    rw [← AList.lookup_isSome, ← AList.lookup_isSome, heq k]
  · unfold Count
    rw [← length_records, ← length_records]
    exact (records_perm_of_lookup heq).length_eq

/-- Witness for C8: two passes over the state `stAB`; the first creates the placeholder
`B`, the second visits it. -/
theorem C8_pass_idempotent_witness :
    NoNil stAB.data ∧ RangeOrder ["A"] (resetMentions stAB.data) ∧
    ∃ st1, CalculateMentions sortSliceSmall ["A"] ["A", "B"] stAB = some st1 ∧
      ∀ (ss2 : SliceSorter) (visit2 snap2 : List String),
        RangeOrder visit2 (resetMentions st1.data) →
        ∃ st2, CalculateMentions ss2 visit2 snap2 st1 = some st2 ∧
          (∀ k, st2.data.lookup k = st1.data.lookup k) ∧
          (∀ k, k ∈ st2.data ↔ k ∈ st1.data) ∧ Count st2 = Count st1 :=
  have hn : NoNil stAB.data := (reachable_inv (Reachable.handle _ _ Reachable.init)).1
  have hv : RangeOrder ["A"] (resetMentions stAB.data) :=
    rangeOrder_of_keys (by decide) (by decide)
  ⟨hn, hv, C8_pass_idempotent sortSliceSmall ["A"] ["A", "B"] stAB hn hv⟩

/-- Claim C9, as the code has it.  Two passes in a row publish the same records with the
same field values, each sequence ordered by `Score` and then `Mentions`, descending; the
second sequence is a rearrangement of the first, in which records that tie on both may
have changed places. -/
theorem C9_published_order_up_to_ties (ss1 : SliceSorter) (visit1 snap1 : List String)
    (st : State) (hs1 : SortSliceSpec ss1) (hn : NoNil st.data)
    (hv : RangeOrder visit1 (resetMentions st.data)) :
    ∃ st1, CalculateMentions ss1 visit1 snap1 st = some st1 ∧
      (SnapshotOrder snap1 st1.data →
        ∀ (ss2 : SliceSorter) (visit2 snap2 : List String), SortSliceSpec ss2 →
          RangeOrder visit2 (resetMentions st1.data) →
          ∃ st2, CalculateMentions ss2 visit2 snap2 st1 = some st2 ∧
            (SnapshotOrder snap2 st2.data →
              (CurrentOrder st2).Perm (CurrentOrder st1) ∧
              (CurrentOrder st1).Pairwise (fun x y =>
                x.Score > y.Score ∨ (x.Score = y.Score ∧ x.Mentions ≥ y.Mentions)) ∧
              (CurrentOrder st2).Pairwise (fun x y =>
                x.Score > y.Score ∨ (x.Score = y.Score ∧ x.Mentions ≥ y.Mentions)))) := by
  obtain ⟨st1, h1, hn1, hl1, hco1⟩ := CalculateMentions_spec ss1 snap1 hn hv
  refine ⟨st1, h1, ?_⟩
  intro hsnap1 ss2 visit2 snap2 hs2 hv2
  obtain ⟨st2, h2, _, hl2, hco2⟩ := CalculateMentions_spec ss2 snap2 hn1 hv2
  refine ⟨st2, h2, ?_⟩
  intro hsnap2
  have heq : ∀ k, st2.data.lookup k = st1.data.lookup k :=
    fun k => (hl2 k).trans (passResult_idem hl1 k)
  obtain ⟨hp1, hx1⟩ := two_stage_order hs1 (collect snap1 st1.data)
  obtain ⟨hp2, hx2⟩ := two_stage_order hs2 (collect snap2 st2.data)
  unfold CurrentOrder
  rw [hco1, hco2]
  refine ⟨?_, hx1, hx2⟩
  exact ((hp2.trans (collect_perm hsnap2)).trans (records_perm_of_lookup heq)).trans
    (hp1.trans (collect_perm hsnap1)).symm

/-- Witness for C9: two passes over the three-event state `stE`. -/
theorem C9_published_order_up_to_ties_witness :
    SortSliceSpec sortSliceSmall ∧ NoNil stE.data ∧
    RangeOrder ["E1", "E2", "E3"] (resetMentions stE.data) ∧
    ∃ st1, CalculateMentions sortSliceSmall ["E1", "E2", "E3"] ["E1", "E2", "E3"] stE
        = some st1 ∧
      (SnapshotOrder ["E1", "E2", "E3"] st1.data →
        ∀ (ss2 : SliceSorter) (visit2 snap2 : List String), SortSliceSpec ss2 →
          RangeOrder visit2 (resetMentions st1.data) →
          ∃ st2, CalculateMentions ss2 visit2 snap2 st1 = some st2 ∧
            (SnapshotOrder snap2 st2.data →
              (CurrentOrder st2).Perm (CurrentOrder st1) ∧
              (CurrentOrder st1).Pairwise (fun x y =>
                x.Score > y.Score ∨ (x.Score = y.Score ∧ x.Mentions ≥ y.Mentions)) ∧
              (CurrentOrder st2).Pairwise (fun x y =>
                x.Score > y.Score ∨ (x.Score = y.Score ∧ x.Mentions ≥ y.Mentions)))) :=
  have hn : NoNil stE.data :=
    (reachable_inv (Reachable.handle _ _ (Reachable.handle _ _
      (Reachable.handle _ _ Reachable.init)))).1
  have hv : RangeOrder ["E1", "E2", "E3"] (resetMentions stE.data) :=
    rangeOrder_of_keys (by decide) (by decide)
  ⟨sortSliceSmall_spec, hn, hv,
    C9_published_order_up_to_ties sortSliceSmall ["E1", "E2", "E3"] ["E1", "E2", "E3"] stE
      sortSliceSmall_spec hn hv⟩

/-- Claim C9 as stated fails: two passes in a row over the store of `E1`, `E2`, `E3`, the
first collecting the records as `E1, E2, E3` and the second as `E1, E3, E2`, publish
`E1, E2, E3` and then `E1, E3, E2`: the records `E2` and `E3`, which tie on `Score` and
`Mentions`, change places. -/
theorem C9_counterexample :
    ∃ st1 st2,
      CalculateMentions sortSliceSmall ["E1", "E2", "E3"] ["E1", "E2", "E3"] stE = some st1 ∧
      CalculateMentions sortSliceSmall ["E1", "E2", "E3"] ["E1", "E3", "E2"] st1 = some st2 ∧
      SnapshotOrder ["E1", "E2", "E3"] st1.data ∧ SnapshotOrder ["E1", "E3", "E2"] st2.data ∧
      (CurrentOrder st1).map (fun t => t.EventID) = ["E1", "E2", "E3"] ∧
      (CurrentOrder st2).map (fun t => t.EventID) = ["E1", "E3", "E2"] ∧
      CurrentOrder st1 ≠ CurrentOrder st2 := by
  have hs1 : (CalculateMentions sortSliceSmall ["E1", "E2", "E3"] ["E1", "E2", "E3"]
      stE).isSome = true := by decide
  obtain ⟨st1, h1⟩ := Option.isSome_iff_exists.mp hs1
  have hs2 : ((CalculateMentions sortSliceSmall ["E1", "E2", "E3"] ["E1", "E2", "E3"]
      stE).bind (fun s =>
        CalculateMentions sortSliceSmall ["E1", "E2", "E3"] ["E1", "E3", "E2"] s)).isSome
      = true := by decide
  rw [h1, Option.some_bind] at hs2
  obtain ⟨st2, h2⟩ := Option.isSome_iff_exists.mp hs2
  have hval : ((CalculateMentions sortSliceSmall ["E1", "E2", "E3"] ["E1", "E2", "E3"]
      stE).bind (fun s =>
        (CalculateMentions sortSliceSmall ["E1", "E2", "E3"] ["E1", "E3", "E2"] s).map
          (fun s2 => (s.currentOrder.map (fun t => t.EventID),
            s2.currentOrder.map (fun t => t.EventID),
            decide (["E1", "E2", "E3"].Perm s.data.keys),
            decide (["E1", "E3", "E2"].Perm s2.data.keys)))))
      = some (["E1", "E2", "E3"], ["E1", "E3", "E2"], true, true) := by decide
  rw [h1, Option.some_bind, h2] at hval
  simp only [Option.map_some', Option.some.injEq, Prod.mk.injEq, decide_eq_true_eq] at hval
  obtain ⟨ha, hb, hc, hd⟩ := hval
  refine ⟨st1, st2, h1, h2, hc, hd, ha, hb, ?_⟩
  intro heq
  unfold CurrentOrder at heq
  rw [heq, hb] at ha
  exact absurd ha (by decide)

/-! ## Ingestion -/

theorem keys_toFinset_insert (d : Store) (k : String) (v : RankingTarget) :
    (d.insert k v).keys.toFinset = insert k d.keys.toFinset := by
  ext x
  rw [List.mem_toFinset, ← AList.mem_keys, AList.mem_insert, Finset.mem_insert,
    List.mem_toFinset, ← AList.mem_keys]

theorem count_eq_card (st : State) : Count st = st.data.keys.toFinset.card := by
  unfold Count
  rw [List.toFinset_card_of_nodup st.data.keys_nodup]

theorem keys_ingest (events : List Mindmachine.Event) :
    ∀ st : State, (ingest events st).data.keys.toFinset
      = st.data.keys.toFinset ∪ (events.map (fun e => e.ID)).toFinset := by
  induction events with
  | nil => intro st; simp [ingest]
  | cons e es ih =>
    intro st
    have h0 : ingest (e :: es) st = ingest es (HandleEvent e st).1 := rfl
    rw [h0, ih, HandleEvent_data, keys_toFinset_insert]
    ext x
    simp only [Finset.mem_union, Finset.mem_insert, List.mem_toFinset, List.map_cons,
      List.mem_cons]
    tauto

/-- Claim C10.  Starting from the empty store, after any finite sequence of `HandleEvent`
calls `Count()` is the number of distinct identifiers in the sequence; and on any store,
ingesting an identifier already present replaces its record and leaves `Count()` as it
was. -/
theorem C10_count_distinct_ids :
    (∀ events : List Mindmachine.Event,
      Count (ingest events State.init) = (events.map (fun e => e.ID)).toFinset.card) ∧
    (∀ (st : State) (e : Mindmachine.Event), e.ID ∈ st.data →
      Count (HandleEvent e st).1 = Count st ∧
      (HandleEvent e st).1.data.lookup e.ID
        = some ⟨e.ID, e.Nostr, 0, 0, some ∅⟩) := by
  constructor
  · intro events
    rw [count_eq_card, keys_ingest]
    simp [State.init]
  · intro st e he
    constructor
    · rw [count_eq_card, count_eq_card, HandleEvent_data, keys_toFinset_insert]
      rw [Finset.insert_eq_of_mem]
      rw [List.mem_toFinset, ← AList.mem_keys]
      exact he
    · rw [HandleEvent_data, AList.lookup_insert]

/-- An instance of C10: three events with two distinct identifiers give a count of 2. -/
theorem C10_count_distinct_ids_witness :
    Count (ingest [mkEvent "x" [], mkEvent "y" [["e", "x"]], mkEvent "x" [["e", "y"]]]
      State.init) = 2 ∧
    (([mkEvent "x" [], mkEvent "y" [["e", "x"]], mkEvent "x" [["e", "y"]]].map
      (fun e => e.ID)).toFinset.card = 2) :=
  ⟨(C10_count_distinct_ids.1 _).trans (by decide), by decide⟩

/-! ## What `HandleEvent` does -/

theorem HandleEvent_lookup (st : State) (e : Mindmachine.Event) :
    (HandleEvent e st).1.data.lookup e.ID
        = some { EventID := e.ID, Event := e.Nostr, Score := 0, Mentions := 0,
                 MentionMap := some ∅ } ∧
      (∀ k, k ≠ e.ID → (HandleEvent e st).1.data.lookup k = st.data.lookup k) := by
  refine ⟨?_, ?_⟩
  · rw [HandleEvent_data, AList.lookup_insert]
  · intro k hk
    rw [HandleEvent_data, AList.lookup_insert_ne hk]

/-- Claim C11.  After `HandleEvent(e)` the record under `e.ID` has `EventID == e.ID`, the
payload of `e` as `Event`, `Score == 0`, `Mentions == 0` and an empty `MentionMap`; the
record under any other identifier is as before, and so is `CurrentOrder()`. -/
theorem C11_HandleEvent_frame (st : State) (e : Mindmachine.Event) :
    (HandleEvent e st).1.data.lookup e.ID
        = some { EventID := e.ID, Event := e.Nostr, Score := 0, Mentions := 0,
                 MentionMap := some ∅ } ∧
      (∀ k, k ≠ e.ID → (HandleEvent e st).1.data.lookup k = st.data.lookup k) ∧
      (∀ k, k ≠ e.ID → (k ∈ (HandleEvent e st).1.data ↔ k ∈ st.data)) ∧
      CurrentOrder (HandleEvent e st).1 = CurrentOrder st := by
  refine ⟨?_, ?_, ?_, rfl⟩
  · rw [HandleEvent_data, AList.lookup_insert]
  · intro k hk
    rw [HandleEvent_data, AList.lookup_insert_ne hk]
  · intro k hk
    rw [HandleEvent_data, AList.mem_insert]
    exact ⟨fun h => h.resolve_left hk, Or.inr⟩

/-- Claim C12, as the code has it.  `HandleEvent` returns the zero values of its two
named results, which it never assigns: the zero `HashSeq` and the flag `false`; the
record is stored all the same. -/
theorem C12_HandleEvent_returns_zero (st : State) (e : Mindmachine.Event) :
    (HandleEvent e st).2.1 = Mindmachine.HashSeq.zero ∧ (HandleEvent e st).2.2 = false ∧
      e.ID ∈ (HandleEvent e st).1.data :=
  ⟨rfl, rfl, by rw [HandleEvent_data, AList.mem_insert]; exact Or.inl rfl⟩

/-- Claim C12 as stated fails: the flag returned for an event ingested into the empty
store is `false`, not `true`. -/
theorem C12_counterexample :
    (HandleEvent (mkEvent "A" []) State.init).2.2 ≠ true ∧
      (HandleEvent (mkEvent "A" []) State.init).2.1 = Mindmachine.HashSeq.zero := by
  constructor
  · decide
  · rfl

/-! ## A pass that returns, with or without nil maps -/

theorem edges_lookup {d d1 : Store} {L : List (String × String)}
    (hL : L.Perm (allPairs d)) (h : applyMentions L (resetMentions d) = some d1)
    (k : String) : d1.lookup k = passResult d k := by
  rw [applyMentions_lookup h k, foldl_bumpOne, lookup_resetMentions]
  unfold passResult mentionCount mentioners
  rw [hL.countP_eq, List.toFinset_eq_of_perm _ _ ((hL.filter _).map Prod.snd)]

theorem mentionLoop_lookup {d d1 : Store} {visit : List String}
    (hv : RangeOrder visit (resetMentions d))
    (h : mentionLoop visit (resetMentions d) = some d1) (k : String) :
    d1.lookup k = passResult d k := by
  rw [mentionLoop_eq] at h
  have hf : pairsAt (resetMentions d) = pairsAt d := funext (pairsAt_resetMentions d)
  rw [hf] at h
  exact edges_lookup (flatMap_rangeOrder (rangeOrder_reset hv)) h k

theorem CalculateMentions_lookup {ss : SliceSorter} {visit snap : List String}
    {st st1 : State} (hv : RangeOrder visit (resetMentions st.data))
    (h : CalculateMentions ss visit snap st = some st1) (k : String) :
    st1.data.lookup k = passResult st.data k :=
  mentionLoop_lookup hv (CalculateMentions_data h).1 k

theorem passResult_of_lookup {d : Store} {k : String} {t0 : RankingTarget}
    (h : d.lookup k = some t0) :
    ∃ t, passResult d k = some t ∧ t.EventID = t0.EventID ∧ t.Event = t0.Event := by
  unfold passResult bumped
  rw [h]
  exact ⟨_, rfl, rfl, rfl⟩

/-- Claim C16.  No operation deletes a record.  Every identifier of the store is still
there after `HandleEvent`; and whenever `CalculateMentions` returns, every identifier of
the store is still there and the record under it has the `EventID` and `Event` it had
(it does return when no `MentionMap` is nil). -/
theorem C16_no_record_deleted (ss : SliceSorter) (visit snap : List String) (st : State)
    (hv : RangeOrder visit (resetMentions st.data)) :
    (∀ (e : Mindmachine.Event) (k : String), k ∈ st.data → k ∈ (HandleEvent e st).1.data) ∧
    (∀ st1, CalculateMentions ss visit snap st = some st1 →
      ∀ k t0, st.data.lookup k = some t0 →
        ∃ t, st1.data.lookup k = some t ∧ t.EventID = t0.EventID ∧ t.Event = t0.Event) ∧
    (NoNil st.data → ∃ st1, CalculateMentions ss visit snap st = some st1) := by
  refine ⟨?_, ?_, ?_⟩
  · intro e k hk
    rw [HandleEvent_data, AList.mem_insert]
    exact Or.inr hk
  · intro st1 h1 k t0 h0
    rw [CalculateMentions_lookup hv h1 k]
    exact passResult_of_lookup h0
  · intro hn
    obtain ⟨st1, h1, _⟩ := CalculateMentions_spec ss snap hn hv
    exact ⟨st1, h1⟩

/-- Witness for C16: the state `stAB`, whose pass adds the placeholder `B` and keeps `A`. -/
theorem C16_no_record_deleted_witness :
    RangeOrder ["A"] (resetMentions stAB.data) ∧
    (∀ (e : Mindmachine.Event) (k : String), k ∈ stAB.data → k ∈ (HandleEvent e stAB).1.data) ∧
    (∀ st1, CalculateMentions sortSliceSmall ["A"] ["A", "B"] stAB = some st1 →
      ∀ k t0, stAB.data.lookup k = some t0 →
        ∃ t, st1.data.lookup k = some t ∧ t.EventID = t0.EventID ∧ t.Event = t0.Event) ∧
    (NoNil stAB.data → ∃ st1, CalculateMentions sortSliceSmall ["A"] ["A", "B"] stAB
      = some st1) :=
  have hv : RangeOrder ["A"] (resetMentions stAB.data) :=
    rangeOrder_of_keys (by decide) (by decide)
  ⟨hv, C16_no_record_deleted sortSliceSmall ["A"] ["A", "B"] stAB hv⟩

/-! ## A tag that names an identifier is recorded -/

theorem named_counts {d : Store} {j v : String} {s : RankingTarget}
    (hs : d.lookup j = some s) (hv : v ∈ eRefs s) :
    1 ≤ mentionCount d v ∧ s.EventID ∈ mentioners d v := by
  have hmem : s.EventID ∈ mentioners d v :=
    (mem_mentioners d v s.EventID).mpr ⟨⟨j, s⟩, AList.mem_lookup_iff.mp hs, rfl, hv⟩
  refine ⟨?_, hmem⟩
  rw [mentionCount_eq_length]
  unfold mentioners at hmem
  rw [List.mem_toFinset] at hmem
  exact List.length_pos_of_mem hmem

theorem passResult_isSome_of_count {d : Store} {k : String} (h : 1 ≤ mentionCount d k) :
    (passResult d k).isSome = true := by
  unfold passResult bumped
  cases hd : d.lookup k with
  | some t0 => rfl
  | none =>
    have : ¬ mentionCount d k = 0 := by omega
    simp [this]

/-- A tag of a stored record `s` whose value is `v` leaves, after the pass, a record under
`v` with `s.EventID` in its `MentionMap` and `Mentions` equal to the number of tags whose
value is `v`, at least 1. -/
theorem mention_recorded (ss : SliceSorter) {visit : List String} (snap : List String)
    {st : State} (hn : NoNil st.data) (hv : RangeOrder visit (resetMentions st.data))
    {j v : String} {s : RankingTarget} (hs : st.data.lookup j = some s) (hvs : v ∈ eRefs s) :
    ∃ st1 t m, CalculateMentions ss visit snap st = some st1 ∧
      (∀ k, st1.data.lookup k = passResult st.data k) ∧
      st1.data.lookup v = some t ∧ t.MentionMap = some m ∧ s.EventID ∈ m ∧
      t.Mentions = mentionCount st.data v ∧ 1 ≤ t.Mentions := by
  obtain ⟨st1, h1, _, hl, _⟩ := CalculateMentions_spec ss snap hn hv
  obtain ⟨hc, hm⟩ := named_counts hs hvs
  obtain ⟨t, ht⟩ := Option.isSome_iff_exists.mp (passResult_isSome_of_count hc)
  refine ⟨st1, t, _, h1, hl, (hl v).trans ht, passResult_mentionMap hn ht,
    Finset.mem_union_right _ hm, passResult_mentions ht, ?_⟩
  rw [passResult_mentions ht]
  exact_mod_cast hc

theorem bare_tag_ref {s : RankingTarget} (h : ["e"] ∈ s.Event.Tags) : "" ∈ eRefs s := by
  unfold eRefs Tags.GetAll
  rw [List.mem_map]
  refine ⟨["e"], ?_, rfl⟩
  rw [List.mem_filter]
  exact ⟨h, by decide⟩

/-- Claim C14, as the code has it.  A tag `["e"]` without a value is not skipped: its
value reads as the empty string, and after the pass (which raises no error) the store
holds under the identifier `""` a record with the `EventID` of the tagged record in its
`MentionMap` and `Mentions` at least 1; when nothing was stored under `""` before, that
record is a placeholder created by the pass. -/
theorem C14_bare_tag_names_empty_id (ss : SliceSorter) (visit snap : List String)
    (st : State) (j : String) (s : RankingTarget)
    (hn : NoNil st.data) (hv : RangeOrder visit (resetMentions st.data))
    (hs : st.data.lookup j = some s) (htag : ["e"] ∈ s.Event.Tags) :
    ∃ st1 t m, CalculateMentions ss visit snap st = some st1 ∧
      st1.data.lookup "" = some t ∧ t.MentionMap = some m ∧ s.EventID ∈ m ∧
      1 ≤ t.Mentions ∧
      (st.data.lookup "" = none → t.EventID = "" ∧ t.Event = Nostr.Event.zero) := by
  obtain ⟨st1, t, m, h1, hl, ht, hm, hmem, _, hge⟩ :=
    mention_recorded ss snap hn hv hs (bare_tag_ref htag)
  refine ⟨st1, t, m, h1, ht, hm, hmem, hge, ?_⟩
  intro hnone
  rw [hl ""] at ht
  unfold passResult bumped at ht
  rw [hnone] at ht
  simp only [Option.map_none'] at ht
  split_ifs at ht
  simp only [Option.some.injEq] at ht
  subst ht
  exact ⟨rfl, rfl⟩

/-- Witness for C14: the state `stBare`, whose only record `A` has the single tag
`["e"]`. -/
theorem C14_bare_tag_names_empty_id_witness :
    NoNil stBare.data ∧ RangeOrder ["A"] (resetMentions stBare.data) ∧
    stBare.data.lookup "A"
      = some ⟨"A", (mkEvent "A" [["e"]]).Nostr, 0, 0, some ∅⟩ ∧
    ["e"] ∈ (mkEvent "A" [["e"]]).Nostr.Tags ∧
    ∃ st1 t m, CalculateMentions sortSliceSmall ["A"] ["A", ""] stBare = some st1 ∧
      st1.data.lookup "" = some t ∧ t.MentionMap = some m ∧ "A" ∈ m ∧
      1 ≤ t.Mentions ∧
      (stBare.data.lookup "" = none → t.EventID = "" ∧ t.Event = Nostr.Event.zero) :=
  have hn : NoNil stBare.data := (reachable_inv (Reachable.handle _ _ Reachable.init)).1
  have hv : RangeOrder ["A"] (resetMentions stBare.data) :=
    rangeOrder_of_keys (by decide) (by decide)
  ⟨hn, hv, by decide, by decide,
    C14_bare_tag_names_empty_id sortSliceSmall ["A"] ["A", ""] stBare "A"
      ⟨"A", (mkEvent "A" [["e"]]).Nostr, 0, 0, some ∅⟩ hn hv (by decide) (by decide)⟩

/-- Claim C14 as stated fails: a pass over the store whose only record `A` has the single
tag `["e"]` creates a record under `""`, with one mention, so the store has two keys
where it had one. -/
theorem C14_counterexample :
    Reachable stBare ∧ Count stBare = 1 ∧ stBare.data.lookup "" = none ∧
    (stBare.data.lookup "A").map (fun t => t.Event.Tags) = some [["e"]] ∧
    ∃ st1 t, CalculateMentions sortSliceSmall ["A"] ["A", ""] stBare = some st1 ∧
      st1.data.lookup "" = some t ∧ t.Mentions = 1 ∧ mapLen t.MentionMap = 1 ∧
      Count st1 = 2 := by
  refine ⟨Reachable.handle _ _ Reachable.init, by decide, by decide, by decide, ?_⟩
  have hsome : (CalculateMentions sortSliceSmall ["A"] ["A", ""] stBare).isSome = true := by
    decide
  obtain ⟨st1, h1⟩ := Option.isSome_iff_exists.mp hsome
  have hB : ((CalculateMentions sortSliceSmall ["A"] ["A", ""] stBare).bind
      (fun s => (s.data.lookup "").map
        (fun t => (t.Mentions, mapLen t.MentionMap, Count s)))) = some (1, 1, 2) := by
    decide
  rw [h1] at hB
  simp only [Option.some_bind, Option.map_eq_some', Prod.mk.injEq] at hB
  obtain ⟨t, ht, h2, h3, h4⟩ := hB
  exact ⟨st1, t, h1, ht, h2, h3, h4⟩

/-- Claim C15, as the code has it.  The pass takes the tags `GetAll([]string{"e"})`
returns: every tag whose name begins with `e`.  If a record `A` of the store, stored
under its own identifier, carries such a tag whose value is that identifier, then after
the pass `A.MentionMap` contains the identifier and `A.Mentions` is at least 1, and
exactly 1 when `A` names itself in one such tag and no other record names it in one. -/
theorem C15_self_reference_counted (ss : SliceSorter) (visit snap : List String)
    (st : State) (a : String) (A : RankingTarget)
    (hn : NoNil st.data) (hv : RangeOrder visit (resetMentions st.data))
    (hA : st.data.lookup a = some A) (hid : A.EventID = a) (hself : a ∈ eRefs A) :
    ∃ st1 t m, CalculateMentions ss visit snap st = some st1 ∧
      st1.data.lookup a = some t ∧ t.EventID = a ∧ t.Event = A.Event ∧
      t.MentionMap = some m ∧ a ∈ m ∧ 1 ≤ t.Mentions ∧
      ((eRefs A).count a = 1 →
        (∀ j s, st.data.lookup j = some s → j ≠ a → a ∉ eRefs s) → t.Mentions = 1) := by
  obtain ⟨st1, t, m, h1, hl, ht, hm, hmem, hcnt, hge⟩ :=
    mention_recorded ss snap hn hv hA hself
  obtain ⟨t2, ht2, hid2, hev2⟩ := passResult_of_lookup hA
  have ht3 := ht
  rw [hl a, ht2] at ht3
  simp only [Option.some.injEq] at ht3
  subst ht3
  rw [hid] at hmem hid2
  refine ⟨st1, t2, m, h1, ht, hid2, hev2, hm, hmem, hge, ?_⟩
  intro hone honly
  rw [hcnt, mentionCount_eq_length, sources_single hA hone honly]
  rfl

/-- Witness for C15: the state `stLoop`, whose only record `A` names itself once. -/
theorem C15_self_reference_counted_witness :
    NoNil stLoop.data ∧ RangeOrder ["A"] (resetMentions stLoop.data) ∧
    stLoop.data.lookup "A"
      = some ⟨"A", (mkEvent "A" [["e", "A"]]).Nostr, 0, 0, some ∅⟩ ∧
    "A" ∈ eRefs ⟨"A", (mkEvent "A" [["e", "A"]]).Nostr, 0, 0, some ∅⟩ ∧
    ∃ st1 t m, CalculateMentions sortSliceSmall ["A"] ["A"] stLoop = some st1 ∧
      st1.data.lookup "A" = some t ∧ t.EventID = "A" ∧
      t.Event = (mkEvent "A" [["e", "A"]]).Nostr ∧
      t.MentionMap = some m ∧ "A" ∈ m ∧ 1 ≤ t.Mentions ∧
      ((eRefs ⟨"A", (mkEvent "A" [["e", "A"]]).Nostr, 0, 0, some ∅⟩).count "A" = 1 →
        (∀ j s, stLoop.data.lookup j = some s → j ≠ "A" → "A" ∉ eRefs s) →
        t.Mentions = 1) :=
  have hn : NoNil stLoop.data := (reachable_inv (Reachable.handle _ _ Reachable.init)).1
  have hv : RangeOrder ["A"] (resetMentions stLoop.data) :=
    rangeOrder_of_keys (by decide) (by decide)
  ⟨hn, hv, by decide, by decide,
    C15_self_reference_counted sortSliceSmall ["A"] ["A"] stLoop "A"
      ⟨"A", (mkEvent "A" [["e", "A"]]).Nostr, 0, 0, some ∅⟩ hn hv (by decide) rfl
      (by decide)⟩

/-- Claim C15 as stated fails in its last part: the store holds one record, `A`, with
one tag `e` naming `A` and one tag `emoji` with the same value; after the pass
`A.Mentions == 2`. -/
theorem C15_counterexample :
    stEmoji.data.lookup "A"
      = some ⟨"A", (mkEvent "A" [["e", "A"], ["emoji", "A"]]).Nostr, 0, 0, some ∅⟩ ∧
    (exactERefs ⟨"A", (mkEvent "A" [["e", "A"], ["emoji", "A"]]).Nostr, 0, 0,
      some ∅⟩).count "A" = 1 ∧
    stEmoji.data.keys = ["A"] ∧
    ∃ st1 t, CalculateMentions sortSliceSmall ["A"] ["A"] stEmoji = some st1 ∧
      st1.data.lookup "A" = some t ∧ t.Mentions = 2 ∧ t.Mentions ≠ 1 := by
  refine ⟨by decide, by decide, by decide, ?_⟩
  have hsome : (CalculateMentions sortSliceSmall ["A"] ["A"] stEmoji).isSome = true := by
    decide
  obtain ⟨st1, h1⟩ := Option.isSome_iff_exists.mp hsome
  have hB : ((CalculateMentions sortSliceSmall ["A"] ["A"] stEmoji).bind
      (fun s => s.data.lookup "A")).map (fun t => t.Mentions) = some 2 := by decide
  rw [h1] at hB
  simp only [Option.some_bind, Option.map_eq_some'] at hB
  obtain ⟨t, ht, h2⟩ := hB
  exact ⟨st1, t, h1, ht, h2, by rw [h2]; decide⟩

/-- A tag whose name is `e` is among the tags `GetAll([]string{"e"})` returns. -/
theorem exact_mem_eRefs {t : RankingTarget} {v : String} (h : v ∈ exactERefs t) :
    v ∈ eRefs t := by
  unfold exactERefs at h
  unfold eRefs Tags.GetAll
  rw [List.mem_map] at h ⊢
  obtain ⟨tag, htag, hv⟩ := h
  rw [List.mem_filter] at htag
  refine ⟨tag, ?_, hv⟩
  rw [List.mem_filter]
  refine ⟨htag.1, ?_⟩
  have hh := htag.2
  simp only [decide_eq_true_eq] at hh
  cases tag with
  | nil => simp at hh
  | cons a l =>
    simp only [List.head?_cons, Option.some.injEq] at hh
    subst hh
    rfl

/-! ## A placeholder replaced by its event -/

theorem filter_flatMap_congr {α β : Type} (p : β → Bool) (f g : α → List β) (l : List α)
    (h : ∀ x ∈ l, (f x).filter p = (g x).filter p) :
    (l.flatMap f).filter p = (l.flatMap g).filter p := by
  induction l with
  | nil => rfl
  | cons a l ih =>
    rw [List.flatMap_cons, List.flatMap_cons, List.filter_append, List.filter_append,
      h a (List.mem_cons_self a l), ih (fun x hx => h x (List.mem_cons_of_mem a hx))]

theorem pairsAt_insert_same (d : Store) (k : String) (r : RankingTarget) :
    pairsAt (d.insert k r) k = srcPairs r := by
  unfold pairsAt
  rw [AList.lookup_insert]

theorem pairsAt_insert_ne (d : Store) {k x : String} (r : RankingTarget) (h : x ≠ k) :
    pairsAt (d.insert k r) x = pairsAt d x := by
  unfold pairsAt
  rw [AList.lookup_insert_ne h]

/-- Storing a record under `k` leaves the edges that satisfy `p` as they were, up to
their order, when the new record contributes the same such edges as the old one. -/
theorem filter_allPairs_insert (p : String × String → Bool) (d : Store) (k : String)
    (r : RankingTarget) (h : (srcPairs r).filter p = (pairsAt d k).filter p) :
    ((allPairs (d.insert k r)).filter p).Perm ((allPairs d).filter p) := by
  have hr : RangeOrder (d.insert k r).keys d :=
    ⟨(d.insert k r).keys_nodup, fun x hx => by
      rw [← AList.mem_keys, AList.mem_insert]; exact Or.inr hx⟩
  have h1 := (flatMap_rangeOrder hr).filter p
  have h2 : ((d.insert k r).keys.flatMap (pairsAt (d.insert k r))).filter p
      = ((d.insert k r).keys.flatMap (pairsAt d)).filter p := by
    apply filter_flatMap_congr
    intro x _
    by_cases hx : x = k
    · rw [hx, pairsAt_insert_same, h]
    · rw [pairsAt_insert_ne d r hx]
  rw [flatMap_keys] at h2
  rw [h2]
  exact h1

theorem mentionCount_insert (d : Store) (k B : String) (r : RankingTarget)
    (h : (srcPairs r).filter (fun p => decide (p.1 = B))
      = (pairsAt d k).filter (fun p => decide (p.1 = B))) :
    mentionCount (d.insert k r) B = mentionCount d B := by
  unfold mentionCount
  rw [List.countP_eq_length_filter, List.countP_eq_length_filter]
  exact (filter_allPairs_insert _ d k r h).length_eq

theorem mentioners_insert (d : Store) (k B : String) (r : RankingTarget)
    (h : (srcPairs r).filter (fun p => decide (p.1 = B))
      = (pairsAt d k).filter (fun p => decide (p.1 = B))) :
    mentioners (d.insert k r) B = mentioners d B := by
  unfold mentioners
  exact List.toFinset_eq_of_perm _ _ ((filter_allPairs_insert _ d k r h).map Prod.snd)

theorem filter_srcPairs_nil {r : RankingTarget} {B : String} (h : B ∉ eRefs r) :
    (srcPairs r).filter (fun p => decide (p.1 = B)) = [] := by
  rw [List.filter_eq_nil_iff]
  intro a ha
  unfold srcPairs at ha
  rw [List.mem_map] at ha
  obtain ⟨v, hv, rfl⟩ := ha
  simp only [decide_eq_true_eq]
  intro hvB
  exact h (hvB ▸ hv)

/-- Claim C13, as the code has it.  Take the store a pass leaves, with a placeholder (a
record without an event) under `B`, created by that pass or by an earlier one.
`HandleEvent` of an event with ID `B` puts in its place a record with `Mentions == 0` and
an empty `MentionMap`.  Provided the event carries no tag naming `B` among the tags
`GetAll([]string{"e"})` returns (every tag whose name begins with `e`), the next pass
gives that record, which carries the event, the `Mentions` the placeholder had, and as
`MentionMap` the `EventID`s of the records that name `B` in such a tag: the `MentionMap`
the placeholder had when every identifier in it is the `EventID` of such a record. -/
theorem C13_placeholder_replaced (ss1 : SliceSorter) (visit1 snap1 : List String)
    (st : State) (e : Mindmachine.Event)
    (hn : NoNil st.data) (hv : RangeOrder visit1 (resetMentions st.data))
    (hnoself : e.ID ∉ eRefs ⟨e.ID, e.Nostr, 0, 0, some ∅⟩) :
    ∃ st1, CalculateMentions ss1 visit1 snap1 st = some st1 ∧
      (HandleEvent e st1).1.data.lookup e.ID = some ⟨e.ID, e.Nostr, 0, 0, some ∅⟩ ∧
      ∀ p, st1.data.lookup e.ID = some p → p.Event = Nostr.Event.zero →
        ∀ (ss2 : SliceSorter) (visit2 snap2 : List String),
          RangeOrder visit2 (resetMentions (HandleEvent e st1).1.data) →
          ∃ st3 t m, CalculateMentions ss2 visit2 snap2 (HandleEvent e st1).1 = some st3 ∧
            st3.data.lookup e.ID = some t ∧ t.Event = e.Nostr ∧
            t.Mentions = p.Mentions ∧ t.MentionMap = some m ∧
            (∀ x, x ∈ m ↔ ∃ rec ∈ st1.data.entries, rec.2.EventID = x ∧ e.ID ∈ eRefs rec.2) ∧
            (∀ m0, p.MentionMap = some m0 →
              (∀ x ∈ m0, ∃ rec ∈ st1.data.entries, rec.2.EventID = x ∧ e.ID ∈ eRefs rec.2) →
              t.MentionMap = p.MentionMap) := by
  obtain ⟨st1, h1, hn1, hl, _⟩ := CalculateMentions_spec ss1 snap1 hn hv
  refine ⟨st1, h1, (HandleEvent_lookup st1 e).1, ?_⟩
  intro p hp hpz ss2 visit2 snap2 hv2
  have hpr := hp
  rw [hl e.ID] at hpr
  have hpc : p.Mentions = mentionCount st1.data e.ID := by
    rw [passResult_mentions hpr, mentionCount_of_passResult hl]
  have hpm : p.MentionMap = some (oldMap st.data e.ID ∪ mentioners st1.data e.ID) := by
    rw [passResult_mentionMap hn hpr, mentioners_of_passResult hl]
  have hpairs : pairsAt st1.data e.ID = [] := by
    unfold pairsAt
    rw [hp]
    simp only [srcPairs, eRefs, hpz]
    rfl
  have hn2 : NoNil (HandleEvent e st1).1.data := noNil_HandleEvent hn1 e
  obtain ⟨st3, h3, _, hl3, _⟩ := CalculateMentions_spec ss2 snap2 hn2 hv2
  obtain ⟨t, ht, _, hte⟩ := passResult_of_lookup (HandleEvent_lookup st1 e).1
  have hfil : (srcPairs ⟨e.ID, e.Nostr, 0, 0, some ∅⟩).filter (fun p => decide (p.1 = e.ID))
      = (pairsAt st1.data e.ID).filter (fun p => decide (p.1 = e.ID)) := by
    rw [filter_srcPairs_nil hnoself, hpairs]
    rfl
  have hc2 : mentionCount (HandleEvent e st1).1.data e.ID = mentionCount st1.data e.ID := by
    rw [HandleEvent_data, mentionCount_insert _ _ _ _ hfil]
  have hm2 : mentioners (HandleEvent e st1).1.data e.ID = mentioners st1.data e.ID := by
    rw [HandleEvent_data, mentioners_insert _ _ _ _ hfil]
  have hold2 : oldMap (HandleEvent e st1).1.data e.ID = ∅ := by
    unfold oldMap
    rw [(HandleEvent_lookup st1 e).1]
    rfl
  have htm : t.MentionMap = some (mentioners st1.data e.ID) := by
    rw [passResult_mentionMap hn2 ht, hold2, Finset.empty_union, hm2]
  refine ⟨st3, t, _, h3, (hl3 e.ID).trans ht, hte, ?_, htm, ?_, ?_⟩
  · rw [passResult_mentions ht, hc2, hpc]
  · intro x
    exact mem_mentioners st1.data e.ID x
  · intro m0 hm0 hsub
    rw [htm, hm0]
    rw [hpm] at hm0
    simp only [Option.some.injEq] at hm0
    congr 1
    apply Finset.Subset.antisymm
    · rw [← hm0]
      exact Finset.subset_union_right
    · intro x hx
      exact (mem_mentioners st1.data e.ID x).mpr (hsub x hx)

/-- Witness for C13: the state `stAB`, where `A` names the absent `B`, and an event `B`
without tags. -/
theorem C13_placeholder_replaced_witness :
    NoNil stAB.data ∧ RangeOrder ["A"] (resetMentions stAB.data) ∧
    (mkEvent "B" []).ID ∉ eRefs ⟨(mkEvent "B" []).ID, (mkEvent "B" []).Nostr, 0, 0, some ∅⟩ ∧
    ∃ st1 p, CalculateMentions sortSliceSmall ["A"] ["A", "B"] stAB = some st1 ∧
      st1.data.lookup "B" = some p ∧ p.Event = Nostr.Event.zero ∧
      (HandleEvent (mkEvent "B" []) st1).1.data.lookup "B"
        = some ⟨"B", (mkEvent "B" []).Nostr, 0, 0, some ∅⟩ ∧
      ∀ (ss2 : SliceSorter) (visit2 snap2 : List String),
        RangeOrder visit2 (resetMentions (HandleEvent (mkEvent "B" []) st1).1.data) →
        ∃ st3 t, CalculateMentions ss2 visit2 snap2 (HandleEvent (mkEvent "B" []) st1).1
            = some st3 ∧
          st3.data.lookup "B" = some t ∧ t.Event = (mkEvent "B" []).Nostr ∧
          t.Mentions = p.Mentions ∧ t.MentionMap = p.MentionMap := by
  have hn : NoNil stAB.data := (reachable_inv (Reachable.handle _ _ Reachable.init)).1
  have hv : RangeOrder ["A"] (resetMentions stAB.data) :=
    rangeOrder_of_keys (by decide) (by decide)
  have hno : (mkEvent "B" []).ID
      ∉ eRefs ⟨(mkEvent "B" []).ID, (mkEvent "B" []).Nostr, 0, 0, some ∅⟩ := by decide
  obtain ⟨st1, h1, hr, hall⟩ :=
    C13_placeholder_replaced sortSliceSmall ["A"] ["A", "B"] stAB (mkEvent "B" []) hn hv hno
  have hf : (CalculateMentions sortSliceSmall ["A"] ["A", "B"] stAB).bind (fun s =>
      (s.data.lookup "B").map (fun p => (decide (p.Event = Nostr.Event.zero),
        p.MentionMap.isSome,
        decide (∀ x ∈ oldMap s.data "B", x ∈ mentioners s.data "B"))))
      = some (true, true, true) := by decide
  rw [h1] at hf
  simp only [Option.some_bind, Option.map_eq_some', Prod.mk.injEq, decide_eq_true_eq] at hf
  obtain ⟨p, hp, hpz, hsome, hsub⟩ := hf
  obtain ⟨m0, hm0⟩ := Option.isSome_iff_exists.mp hsome
  have hold : oldMap st1.data "B" = m0 := by
    unfold oldMap
    rw [hp]
    simp only [hm0, Option.getD_some]
  refine ⟨hn, hv, hno, st1, p, h1, hp, hpz, hr, ?_⟩
  intro ss2 visit2 snap2 hv2
  obtain ⟨st3, t, m, h3, ht, hte, htm, _, _, hrest⟩ := hall p hp hpz ss2 visit2 snap2 hv2
  refine ⟨st3, t, h3, ht, hte, htm, hrest m0 hm0 ?_⟩
  intro x hx
  rw [← hold] at hx
  exact (mem_mentioners st1.data "B" x).mp (hsub x hx)

/-- Claim C13 as stated fails, in three ways.  After a pass over `A` naming `B` the
placeholder `B` has one mention.  (1) Ingesting an event `B` that names itself in a tag
`e` and running the next pass, with `A` still in the store, gives `B` two mentions and a
`MentionMap` of two identifiers.  (2) So does an event `B` whose only tag is `emoji` with
the value `B`.  (3) Re-ingest `A` without tags, ingest `C` naming `B`, run a pass: the
placeholder has one mention and `{A, C}`; ingest `B` without tags, run a pass, with `C`
still in the store: `B` has a `MentionMap` of one identifier. -/
theorem C13_counterexample :
    (∃ st1 p st3 t,
      CalculateMentions sortSliceSmall ["A"] ["A", "B"] stAB = some st1 ∧
      stAB.data.lookup "B" = none ∧
      st1.data.lookup "B" = some p ∧ p.Mentions = 1 ∧ mapLen p.MentionMap = 1 ∧
      CalculateMentions sortSliceSmall ["A", "B"] ["A", "B"]
        (HandleEvent (mkEvent "B" [["e", "B"]]) st1).1 = some st3 ∧
      st3.data.lookup "B" = some t ∧ t.Mentions = 2 ∧ mapLen t.MentionMap = 2 ∧
      (st3.data.lookup "A").map eRefs = some ["B"]) ∧
    (∃ st1 st3 t,
      CalculateMentions sortSliceSmall ["A"] ["A", "B"] stAB = some st1 ∧
      exactERefs ⟨"B", (mkEvent "B" [["emoji", "B"]]).Nostr, 0, 0, some ∅⟩ = [] ∧
      CalculateMentions sortSliceSmall ["A", "B"] ["A", "B"]
        (HandleEvent (mkEvent "B" [["emoji", "B"]]) st1).1 = some st3 ∧
      st3.data.lookup "B" = some t ∧ t.Mentions = 2 ∧ mapLen t.MentionMap = 2) ∧
    (∃ st1 st2 p st3 t,
      CalculateMentions sortSliceSmall ["A"] ["A", "B"] stAB = some st1 ∧
      CalculateMentions sortSliceSmall ["A", "B", "C"] ["A", "B", "C"]
        (HandleEvent (mkEvent "C" [["e", "B"]]) (HandleEvent (mkEvent "A" []) st1).1).1
        = some st2 ∧
      st2.data.lookup "B" = some p ∧ p.Event = Nostr.Event.zero ∧ p.Mentions = 1 ∧
      mapLen p.MentionMap = 2 ∧
      CalculateMentions sortSliceSmall ["A", "B", "C"] ["A", "B", "C"]
        (HandleEvent (mkEvent "B" []) st2).1 = some st3 ∧
      st3.data.lookup "B" = some t ∧ t.Mentions = 1 ∧ mapLen t.MentionMap = 1 ∧
      (st3.data.lookup "C").map eRefs = some ["B"]) := by
  have hs1 : (CalculateMentions sortSliceSmall ["A"] ["A", "B"] stAB).isSome = true := by
    decide
  obtain ⟨st1, h1⟩ := Option.isSome_iff_exists.mp hs1
  refine ⟨?_, ?_, ?_⟩
  · have hs3 : ((CalculateMentions sortSliceSmall ["A"] ["A", "B"] stAB).bind (fun s =>
        CalculateMentions sortSliceSmall ["A", "B"] ["A", "B"]
          (HandleEvent (mkEvent "B" [["e", "B"]]) s).1)).isSome = true := by decide
    rw [h1, Option.some_bind] at hs3
    obtain ⟨st3, h3⟩ := Option.isSome_iff_exists.mp hs3
    have hP : ((CalculateMentions sortSliceSmall ["A"] ["A", "B"] stAB).bind (fun s =>
        (s.data.lookup "B").map (fun p => (p.Mentions, mapLen p.MentionMap))))
        = some (1, 1) := by decide
    have hT : ((CalculateMentions sortSliceSmall ["A"] ["A", "B"] stAB).bind (fun s =>
        (CalculateMentions sortSliceSmall ["A", "B"] ["A", "B"]
          (HandleEvent (mkEvent "B" [["e", "B"]]) s).1).bind (fun s3 =>
            (s3.data.lookup "B").map (fun t =>
              (t.Mentions, mapLen t.MentionMap, (s3.data.lookup "A").map eRefs)))))
        = some (2, 2, some ["B"]) := by decide
    rw [h1] at hP hT
    rw [Option.some_bind, h3] at hT
    simp only [Option.some_bind, Option.map_eq_some', Prod.mk.injEq] at hP hT
    obtain ⟨p, hp, hp1, hp2⟩ := hP
    obtain ⟨t, ht, ht1, ht2, ht3⟩ := hT
    exact ⟨st1, p, st3, t, h1, by decide, hp, hp1, hp2, h3, ht, ht1, ht2,
      Option.map_eq_some'.mpr ht3⟩
  · have hs3 : ((CalculateMentions sortSliceSmall ["A"] ["A", "B"] stAB).bind (fun s =>
        CalculateMentions sortSliceSmall ["A", "B"] ["A", "B"]
          (HandleEvent (mkEvent "B" [["emoji", "B"]]) s).1)).isSome = true := by decide
    rw [h1, Option.some_bind] at hs3
    obtain ⟨st3, h3⟩ := Option.isSome_iff_exists.mp hs3
    have hT : ((CalculateMentions sortSliceSmall ["A"] ["A", "B"] stAB).bind (fun s =>
        (CalculateMentions sortSliceSmall ["A", "B"] ["A", "B"]
          (HandleEvent (mkEvent "B" [["emoji", "B"]]) s).1).bind (fun s3 =>
            (s3.data.lookup "B").map (fun t => (t.Mentions, mapLen t.MentionMap)))))
        = some (2, 2) := by decide
    rw [h1, Option.some_bind, h3] at hT
    simp only [Option.some_bind, Option.map_eq_some', Prod.mk.injEq] at hT
    obtain ⟨t, ht, ht1, ht2⟩ := hT
    exact ⟨st1, st3, t, h1, by decide, h3, ht, ht1, ht2⟩
  · have hs2 : ((CalculateMentions sortSliceSmall ["A"] ["A", "B"] stAB).bind (fun s =>
        CalculateMentions sortSliceSmall ["A", "B", "C"] ["A", "B", "C"]
          (HandleEvent (mkEvent "C" [["e", "B"]])
            (HandleEvent (mkEvent "A" []) s).1).1)).isSome = true := by decide
    rw [h1, Option.some_bind] at hs2
    obtain ⟨st2, h2⟩ := Option.isSome_iff_exists.mp hs2
    have hs3 : ((CalculateMentions sortSliceSmall ["A"] ["A", "B"] stAB).bind (fun s =>
        (CalculateMentions sortSliceSmall ["A", "B", "C"] ["A", "B", "C"]
          (HandleEvent (mkEvent "C" [["e", "B"]])
            (HandleEvent (mkEvent "A" []) s).1).1).bind (fun s2 =>
          CalculateMentions sortSliceSmall ["A", "B", "C"] ["A", "B", "C"]
            (HandleEvent (mkEvent "B" []) s2).1))).isSome = true := by decide
    rw [h1, Option.some_bind, h2, Option.some_bind] at hs3
    obtain ⟨st3, h3⟩ := Option.isSome_iff_exists.mp hs3
    have hP : ((CalculateMentions sortSliceSmall ["A"] ["A", "B"] stAB).bind (fun s =>
        (CalculateMentions sortSliceSmall ["A", "B", "C"] ["A", "B", "C"]
          (HandleEvent (mkEvent "C" [["e", "B"]])
            (HandleEvent (mkEvent "A" []) s).1).1).bind (fun s2 =>
          (s2.data.lookup "B").map (fun p =>
            (decide (p.Event = Nostr.Event.zero), p.Mentions, mapLen p.MentionMap)))))
        = some (true, 1, 2) := by decide
    have hT : ((CalculateMentions sortSliceSmall ["A"] ["A", "B"] stAB).bind (fun s =>
        (CalculateMentions sortSliceSmall ["A", "B", "C"] ["A", "B", "C"]
          (HandleEvent (mkEvent "C" [["e", "B"]])
            (HandleEvent (mkEvent "A" []) s).1).1).bind (fun s2 =>
          (CalculateMentions sortSliceSmall ["A", "B", "C"] ["A", "B", "C"]
            (HandleEvent (mkEvent "B" []) s2).1).bind (fun s3 =>
              (s3.data.lookup "B").map (fun t =>
                (t.Mentions, mapLen t.MentionMap, (s3.data.lookup "C").map eRefs))))))
        = some (1, 1, some ["B"]) := by decide
    rw [h1, Option.some_bind, h2, Option.some_bind] at hP hT
    rw [h3] at hT
    simp only [Option.some_bind, Option.map_eq_some', Prod.mk.injEq, decide_eq_true_eq]
      at hP hT
    obtain ⟨p, hp, hp0, hp1, hp2⟩ := hP
    obtain ⟨t, ht, ht1, ht2, ht3⟩ := hT
    exact ⟨st1, st2, p, st3, t, h1, h2, hp, hp0, hp1, hp2, h3, ht, ht1, ht2,
      Option.map_eq_some'.mpr ht3⟩

/-! ## The pass against a loop over the records present at its start -/

theorem snapshotLoop_fold (d0 : Store) (order : List String) :
    ∀ d : Store,
      order.foldlM (fun d k =>
        match d0.lookup k with
        | some target =>
          (target.Event.Tags.GetAll ["e"]).foldlM
            (fun d1 tag => mention target.EventID d1 (Tag.Value tag)) d
        | none => some d) d
      = applyMentions (order.flatMap (pairsAt d0)) d := by
  induction order with
  | nil => intro d; rfl
  | cons k ks ih =>
    intro d
    rw [List.foldlM_cons, List.flatMap_cons, applyMentions_append]
    have hstep : (match d0.lookup k with
        | some target =>
          (target.Event.Tags.GetAll ["e"]).foldlM
            (fun d1 tag => mention target.EventID d1 (Tag.Value tag)) d
        | none => some d) = applyMentions (pairsAt d0 k) d := by
      unfold pairsAt
      cases d0.lookup k with
      | none => rfl
      | some target => simp only [applyMentions, srcPairs, eRefs, List.foldlM_map]
    rw [hstep]
    cases h1 : applyMentions (pairsAt d0 k) d with
    | none => rfl
    | some d1 =>
      simp only [Option.some_bind, Option.bind_eq_bind]
      exact ih d1

theorem snapshotLoop_eq (order : List String) (d0 : Store) :
    snapshotLoop order d0 = applyMentions (order.flatMap (pairsAt d0)) d0 :=
  snapshotLoop_fold d0 order d0

theorem rangeOrder_of_perm_keys {d : Store} {order : List String}
    (h : order.Perm d.keys) : RangeOrder order d :=
  ⟨h.nodup_iff.mpr d.keys_nodup, fun _ hk => h.mem_iff.mpr (AList.mem_keys.mp hk)⟩

theorem passResult_created {d : Store} {k : String} {t : RankingTarget}
    (hnone : d.lookup k = none) (h : passResult d k = some t) :
    t.Event = Nostr.Event.zero ∧ eRefs t = [] := by
  unfold passResult bumped at h
  rw [hnone] at h
  simp only [Option.map_none'] at h
  split_ifs at h
  simp only [Option.some.injEq] at h
  subst h
  exact ⟨rfl, rfl⟩

/-- Claim C18.  The store a pass produces is the store obtained by looping only over
the records present at the start of the pass, whatever the order of either loop and
whether or not the pass visits the placeholders it inserts; and any two legal orders of
the pass give the same store.  A record the pass creates has no tags, so visiting it
yields no mention. -/
theorem C18_pass_refines_snapshot_loop (ss : SliceSorter) (visit snap order : List String)
    (st : State) (hn : NoNil st.data) (hv : RangeOrder visit (resetMentions st.data))
    (ho : order.Perm st.data.keys) :
    ∃ st1 d0, CalculateMentions ss visit snap st = some st1 ∧
      snapshotLoop order (resetMentions st.data) = some d0 ∧
      (∀ k, st1.data.lookup k = d0.lookup k) ∧
      (∀ (ss2 : SliceSorter) (visit2 snap2 : List String),
        RangeOrder visit2 (resetMentions st.data) →
        ∃ st2, CalculateMentions ss2 visit2 snap2 st = some st2 ∧
          ∀ k, st2.data.lookup k = st1.data.lookup k) ∧
      (∀ k t, st.data.lookup k = none → st1.data.lookup k = some t →
        eRefs t = [] ∧ visitKey st1.data k = some st1.data) := by
  obtain ⟨st1, h1, _, hl, _⟩ := CalculateMentions_spec ss snap hn hv
  obtain ⟨d0, h0, _, _⟩ := applyMentions_spec
    (order.flatMap (pairsAt (resetMentions st.data))) (resetMentions st.data)
    (noNil_resetMentions hn)
  have hf : pairsAt (resetMentions st.data) = pairsAt st.data :=
    funext (pairsAt_resetMentions st.data)
  have hl0 : ∀ k, d0.lookup k = passResult st.data k := by
    intro k
    have h0b := h0
    rw [hf] at h0b
    exact edges_lookup (flatMap_rangeOrder (rangeOrder_of_perm_keys ho)) h0b k
  refine ⟨st1, d0, h1, ?_, fun k => (hl k).trans (hl0 k).symm, ?_, ?_⟩
  · rw [snapshotLoop_eq]; exact h0
  · intro ss2 visit2 snap2 hv2
    obtain ⟨st2, h2, _, hl2, _⟩ := CalculateMentions_spec ss2 snap2 hn hv2
    exact ⟨st2, h2, fun k => (hl2 k).trans (hl k).symm⟩
  · intro k t hnone ht
    have hc := passResult_created hnone ((hl k).symm.trans ht)
    refine ⟨hc.2, ?_⟩
    rw [visitKey_eq]
    unfold pairsAt
    rw [ht]
    simp only [srcPairs, hc.2]
    rfl

/-- Witness for C18: the state `stAB`; the pass visits `A` and then the placeholder `B`
it has just created, the other loop visits `A` alone. -/
theorem C18_pass_refines_snapshot_loop_witness :
    NoNil stAB.data ∧ RangeOrder ["A", "B"] (resetMentions stAB.data) ∧
    ["A"].Perm stAB.data.keys ∧
    ∃ st1 d0, CalculateMentions sortSliceSmall ["A", "B"] ["A", "B"] stAB = some st1 ∧
      snapshotLoop ["A"] (resetMentions stAB.data) = some d0 ∧
      (∀ k, st1.data.lookup k = d0.lookup k) ∧
      (∀ (ss2 : SliceSorter) (visit2 snap2 : List String),
        RangeOrder visit2 (resetMentions stAB.data) →
        ∃ st2, CalculateMentions ss2 visit2 snap2 stAB = some st2 ∧
          ∀ k, st2.data.lookup k = st1.data.lookup k) ∧
      (∀ k t, stAB.data.lookup k = none → st1.data.lookup k = some t →
        eRefs t = [] ∧ visitKey st1.data k = some st1.data) :=
  have hn : NoNil stAB.data := (reachable_inv (Reachable.handle _ _ Reachable.init)).1
  have hv : RangeOrder ["A", "B"] (resetMentions stAB.data) :=
    rangeOrder_of_keys (by decide) (by decide)
  ⟨hn, hv, by decide,
    C18_pass_refines_snapshot_loop sortSliceSmall ["A", "B"] ["A", "B"] ["A"] stAB hn hv
      (by decide)⟩

/-! ## Invariants of the reachable states, continued -/

theorem mem_of_lookup {d : Store} {k : String} {t : RankingTarget}
    (h : d.lookup k = some t) : k ∈ d :=
  AList.lookup_isSome.mp (by rw [h]; rfl)

theorem mapInStore_reachable {st : State} (h : Reachable st) : MapInStore st.data := by
  induction h with
  | init =>
    intro k t m hk
    simp [State.init, AList.lookup_empty] at hk
  | handle event st _ ih =>
    intro k t m hk hm x hx
    rw [HandleEvent_data, AList.mem_insert]
    by_cases hke : k = event.ID
    · rw [hke, (HandleEvent_lookup st event).1] at hk
      simp only [Option.some.injEq] at hk
      subst hk
      simp only [Option.some.injEq] at hm
      subst hm
      simp at hx
    · rw [(HandleEvent_lookup st event).2 k hke] at hk
      exact Or.inr (ih k t m hk hm x hx)
  | pass ss visit snap st st1 hr _ hv hc _ ih =>
    obtain ⟨hn, hkey⟩ := reachable_inv hr
    have hl := fun k => CalculateMentions_lookup hv hc k
    have hkeep : ∀ x, x ∈ st.data → x ∈ st1.data := by
      intro x hx
      rw [← AList.lookup_isSome, hl x]
      exact passResult_isSome_of_mem hx
    intro k t m hk hm x hx
    rw [hl k] at hk
    rw [passResult_mentionMap hn hk] at hm
    simp only [Option.some.injEq] at hm
    subst hm
    rcases Finset.mem_union.mp hx with hold | hnew
    · unfold oldMap at hold
      cases hd : st.data.lookup k with
      | none => rw [hd] at hold; simp at hold
      | some t0 =>
        rw [hd] at hold
        cases hm0 : t0.MentionMap with
        | none => exact absurd hm0 (hn k t0 hd)
        | some m0 =>
          simp only [hm0, Option.getD_some] at hold
          exact hkeep x (ih k t0 m0 hd hm0 x hold)
    · obtain ⟨e, he, hex, _⟩ := (mem_mentioners st.data k x).mp hnew
      have := hkey e.1 e.2 (entry_lookup he)
      rw [← hex, this]
      exact hkeep e.1 (mem_of_lookup (entry_lookup he))

/-- Claim C19.  In every reachable state each record is stored under its own identifier:
the record at key `k` has `EventID == k`; so two keys whose records have the same
`EventID` are one key, and every identifier in a `MentionMap` is a key of the store. -/
theorem C19_keyed_by_id (st : State) (h : Reachable st) :
    (∀ k t, st.data.lookup k = some t → t.EventID = k) ∧
    (∀ j k s t, st.data.lookup j = some s → st.data.lookup k = some t →
      s.EventID = t.EventID → j = k) ∧
    (∀ k t m, st.data.lookup k = some t → t.MentionMap = some m → ∀ x ∈ m, x ∈ st.data) := by
  have hkey := (reachable_inv h).2
  refine ⟨hkey, ?_, mapInStore_reachable h⟩
  intro j k s t hs ht hst
  rw [← hkey j s hs, ← hkey k t ht, hst]

/-- Witness for C19: the three-event state `stE`. -/
theorem C19_keyed_by_id_witness :
    Reachable stE ∧
    (∀ k t, stE.data.lookup k = some t → t.EventID = k) ∧
    (∀ j k s t, stE.data.lookup j = some s → stE.data.lookup k = some t →
      s.EventID = t.EventID → j = k) ∧
    (∀ k t m, stE.data.lookup k = some t → t.MentionMap = some m →
      ∀ x ∈ m, x ∈ stE.data) :=
  have hr : Reachable stE :=
    Reachable.handle _ _ (Reachable.handle _ _ (Reachable.handle _ _ Reachable.init))
  ⟨hr, C19_keyed_by_id stE hr⟩

/-! ## Nil maps -/

theorem applyMentions_nil_map {L : List (String × String)} {k src : String} :
    ∀ {d : Store} {t : RankingTarget}, d.lookup k = some t → t.MentionMap = none →
      (k, src) ∈ L → applyMentions L d = none := by
  induction L with
  | nil => intro d t _ _ hmem; simp at hmem
  | cons p L ih =>
    intro d t hk hm hmem
    rw [applyMentions_cons]
    by_cases hp : p.1 = k
    · have : mention p.2 d p.1 = none := by
        unfold mention
        rw [hp, hk]
        simp only [hm]
      rw [this]
      rfl
    · cases h1 : mention p.2 d p.1 with
      | none => rfl
      | some d1 =>
        simp only [Option.some_bind]
        have hk1 : d1.lookup k = some t := by
          rw [mention_lookup h1 k, hk]
          simp [bumpOne, hp]
        have hmem2 : (k, src) ∈ L := by
          rcases List.mem_cons.mp hmem with h | h
          · exact absurd (by rw [← h]) hp
          · exact h
        exact ih hk1 hm hmem2

theorem mem_allPairs {d : Store} {j k : String} {s : RankingTarget}
    (hs : d.lookup j = some s) (hk : k ∈ eRefs s) : (k, s.EventID) ∈ allPairs d := by
  unfold allPairs
  rw [List.mem_flatMap]
  refine ⟨⟨j, s⟩, AList.mem_lookup_iff.mp hs, ?_⟩
  unfold srcPairs
  rw [List.mem_map]
  exact ⟨k, hk, rfl⟩

/-- A pass over a store in which a record with a nil `MentionMap` is named by a tag
panics, under every legal loop order. -/
theorem CalculateMentions_nil_map (ss : SliceSorter) {visit : List String}
    (snap : List String) {st : State} (hv : RangeOrder visit (resetMentions st.data))
    {j k : String} {s t : RankingTarget} (ht : st.data.lookup k = some t)
    (hnil : t.MentionMap = none) (hs : st.data.lookup j = some s) (hk : k ∈ eRefs s) :
    CalculateMentions ss visit snap st = none := by
  have hmem : (k, s.EventID) ∈ visit.flatMap (pairsAt st.data) :=
    (flatMap_rangeOrder (rangeOrder_reset hv)).mem_iff.mpr (mem_allPairs hs hk)
  have hf : pairsAt (resetMentions st.data) = pairsAt st.data :=
    funext (pairsAt_resetMentions st.data)
  have hloop : mentionLoop visit (resetMentions st.data) = none := by
    rw [mentionLoop_eq, hf]
    apply applyMentions_nil_map (t := resetTarget t) _ hnil hmem
    rw [lookup_resetMentions, ht]
    rfl
  unfold CalculateMentions
  rw [hloop]

/-- Claim C20.  In every reachable state every `MentionMap` is a non-nil map, so the
pass, under any legal loop order, ends without a panic; and a pass over a store holding a
record with a nil `MentionMap` that another record names in a tag does panic. -/
theorem C20_nil_map_safety :
    (∀ st, Reachable st →
      (∀ k t, st.data.lookup k = some t → t.MentionMap ≠ none) ∧
      ∀ (ss : SliceSorter) (visit snap : List String),
        RangeOrder visit (resetMentions st.data) →
        ∃ st1, CalculateMentions ss visit snap st = some st1) ∧
    (∀ (st : State) (j k : String) (s t : RankingTarget),
      st.data.lookup k = some t → t.MentionMap = none →
      st.data.lookup j = some s → k ∈ eRefs s →
      ∀ (ss : SliceSorter) (visit snap : List String),
        RangeOrder visit (resetMentions st.data) →
        CalculateMentions ss visit snap st = none) ∧
    CalculateMentions sortSliceSmall ["A", "B"] ["A", "B"] stNil = none := by
  refine ⟨?_, ?_, ?_⟩
  · intro st hr
    have hn := (reachable_inv hr).1
    refine ⟨hn, ?_⟩
    intro ss visit snap hv
    obtain ⟨st1, h1, _⟩ := CalculateMentions_spec ss snap hn hv
    exact ⟨st1, h1⟩
  · intro st j k s t ht hnil hs hk ss visit snap hv
    exact CalculateMentions_nil_map ss snap hv ht hnil hs hk
  · have : (CalculateMentions sortSliceSmall ["A", "B"] ["A", "B"] stNil).isSome = false := by
      decide
    exact Option.not_isSome_iff_eq_none.mp (by rw [this]; decide)

/-- An instance of C20: the reachable state `stE` passes, the store `stNil` panics. -/
theorem C20_nil_map_safety_witness :
    Reachable stE ∧
    (∃ st1, CalculateMentions sortSliceSmall ["E1", "E2", "E3"] ["E1", "E2", "E3"] stE
      = some st1) ∧
    stNil.data.lookup "B" = some ⟨"B", Nostr.Event.zero, 0, 0, none⟩ ∧
    "B" ∈ eRefs ⟨"A", (mkEvent "A" [["e", "B"]]).Nostr, 0, 0, some ∅⟩ ∧
    CalculateMentions sortSliceSmall ["B", "A"] ["A", "B"] stNil = none :=
  have hr : Reachable stE :=
    Reachable.handle _ _ (Reachable.handle _ _ (Reachable.handle _ _ Reachable.init))
  ⟨hr,
    (C20_nil_map_safety.1 stE hr).2 sortSliceSmall ["E1", "E2", "E3"] ["E1", "E2", "E3"]
      (rangeOrder_of_keys (by decide) (by decide)),
    by decide, by decide,
    C20_nil_map_safety.2.1 stNil "A" "B"
      ⟨"A", (mkEvent "A" [["e", "B"]]).Nostr, 0, 0, some ∅⟩ ⟨"B", Nostr.Event.zero, 0, 0, none⟩
      (by decide) rfl (by decide) (by decide) sortSliceSmall ["B", "A"] ["A", "B"]
      (rangeOrder_of_keys (by decide) (by decide))⟩

end Gnostr
